import Mathlib

/-!
# Verification of `scripts/merge.py` (AdGuard Home rule merger)

A shallow embedding of the core pipeline of `scripts/merge.py`:
line classification, aggregation into per-category sets/maps, whitelist
resolution, parent-domain collapse, and deterministic rendering.

Python strings are modelled as `List Char`.  Python `set`s and
`dict`-of-`set`s are modelled as canonically sorted duplicate-free lists
(respectively lists of key/value pairs sorted lexicographically); this is
faithful because the script only observes sets through membership,
insertion, deletion and `sorted(...)`, all of which are independent of the
set's internal iteration order (the one internal iteration, building
`by_reg`, feeds each group to `sorted(...)` with an injective key before
use, so group processing is iteration-order independent as well).

Python's `\s` / `str.strip()` whitespace is modelled as the six ASCII
whitespace characters; the inputs handled by this script are ASCII.
-/

/-- The six characters of Python's ASCII whitespace (`\s`, `str.strip()`):
space, tab, newline, carriage return, vertical tab, form feed. -/
def isWsC (c : Char) : Bool :=
  decide (c = ' ') || decide (c = '\t') || decide (c = '\n') ||
  decide (c = '\r') || decide (c = '\x0b') || decide (c = '\x0c')

/-- `c = '.'`, the character stripped by `str.strip(".")`. -/
def isDotC (c : Char) : Bool := decide (c = '.')

/-- Drop the maximal run of characters satisfying `p` from the end. -/
def dropTrail (p : Char → Bool) (l : List Char) : List Char :=
  (l.reverse.dropWhile p).reverse

/-- Python `str.strip` with the character class `p`: drop maximal runs
from both ends. -/
def pstrip (p : Char → Bool) (l : List Char) : List Char :=
  dropTrail p (l.dropWhile p)

/-- Python `s.strip()` (whitespace on both ends). -/
def stripWs (l : List Char) : List Char := pstrip isWsC l

/-- Python `s.strip(".")`. -/
def stripDots (l : List Char) : List Char := pstrip isDotC l

/-- Python `s.lower()` (ASCII case mapping; the pipeline only feeds it
ASCII domain tokens). -/
def lowerL (l : List Char) : List Char := l.map Char.toLower

/-- Python `s.split(".")`: `"".split(".") = [""]`, empty chunks kept. -/
def splitD : List Char → List (List Char)
  | [] => [[]]
  | c :: cs =>
    let r := splitD cs
    if c = '.' then [] :: r
    else
      match r with
      | [] => [[c]]
      | l :: ls => (c :: l) :: ls

/-- Python `".".join(...)`. -/
def joinD (ls : List (List Char)) : List Char :=
  (ls.intersperse ['.']).flatten

/-- Lexicographic comparison of strings by code point, as Python `<` on
`str`: the lexicographic strict order on `List Char`. -/
def llt (a b : List Char) : Bool := decide (a < b)

/-- `COMMON_MULTI_PSL` from `merge.py`. -/
def pslList : List (List Char) :=
  (["co.uk", "ac.uk", "gov.uk", "sch.uk",
    "com.au", "net.au", "org.au", "edu.au", "gov.au",
    "co.jp", "ne.jp", "or.jp", "ed.jp", "go.jp", "gr.jp",
    "com.br", "net.br", "org.br", "gov.br",
    "com.cn", "net.cn", "org.cn", "gov.cn", "edu.cn"]).map String.data

/-- `_split_labels(d)`: `d.strip(".").split(".")`. -/
def splitLabels (d : List Char) : List (List Char) := splitD (stripDots d)

/-- `_is_public_suffix_like(d)`: lowercase and strip dots; true when the
result is in `COMMON_MULTI_PSL` or has at most one label. -/
def isPSLike (d : List Char) : Bool :=
  let d2 := stripDots (lowerL d)
  if d2 ∈ pslList then true else decide ((splitLabels d2).length ≤ 1)

/-- `_registrable_domain(d)`: last two labels, or last three when the last
two form a known multi-label public suffix and the domain has at least
three labels; domains with fewer than two labels are returned unchanged. -/
def regd (d : List Char) : List Char :=
  let labs := splitLabels (lowerL d)
  if labs.length < 2 then d
  else
    let last2 := joinD (labs.drop (labs.length - 2))
    if last2 ∈ pslList ∧ 3 ≤ labs.length then joinD (labs.drop (labs.length - 3))
    else last2

/-- `_is_subdomain_of(child, parent)`: after stripping surrounding dots,
equality or ending in `"." + parent`. -/
def isSubB (child parent : List Char) : Bool :=
  let c := stripDots child
  let p := stripDots parent
  decide (c = p) || ('.' :: p).isSuffixOf c

/-- ASCII character (code point below 128). -/
def isAsciiC (c : Char) : Bool := decide (c.toNat < 128)

/-- The ASCII fast path of CPython's `idna` codec (`encodings/idna.py`,
`Codec.encode`): the empty string encodes to itself; an all-ASCII input is
returned unchanged provided every label but the last has length 1..63 and
the last label has length at most 63.  The non-ASCII (nameprep/punycode)
path is modelled as failure; every domain token the script extracts is
ASCII (`[A-Za-z0-9._-]`), so that path is unreachable from the pipeline
and only the totality of the fallback matters for it. -/
def idnaEncode (d : List Char) : Option (List Char) :=
  if d = [] then some []
  else if d.all isAsciiC then
    if (splitD d).dropLast.all (fun l => decide (0 < l.length) && decide (l.length < 64)) &&
       decide (((splitD d).getLastD []).length < 64)
    then some d else none
  else none

/-- `idna_norm(d)`: strip whitespace, strip dots, try IDNA encoding and
lowercase the result; on failure lowercase the stripped string.  Total by
construction, mirroring the `try/except Exception` in the source. -/
def idna_norm (raw : List Char) : List Char :=
  let d := stripDots (stripWs raw)
  match idnaEncode d with
  | some e => lowerL e
  | none => lowerL d

/-- `[A-Za-z]`. -/
def isAlC (c : Char) : Bool := c.isAlpha

/-- The character class `[A-Za-z0-9._-]` shared by `R_HOSTS`, `R_DOMAIN`,
`R_DNSREWRITE` and `R_DNSTYPE`. -/
def isHostC (c : Char) : Bool :=
  c.isAlphanum || decide (c = '.') || decide (c = '_') || decide (c = '-')

/-- `R_BLANK`: `^\s*$`. -/
def blankB (s : List Char) : Bool := s.all isWsC

/-- `R_COMMENT`: `^\s*(?:!|#)(?!@#)`. -/
def commentB (s : List Char) : Bool :=
  match s.dropWhile isWsC with
  | [] => false
  | c :: rest =>
    (decide (c = '!') || decide (c = '#')) && !(decide (rest.take 2 = ['@', '#']))

/-- `R_COSMETIC`: `^\s*(?:##|#@#)`. -/
def cosmeticB (s : List Char) : Bool :=
  let t := s.dropWhile isWsC
  decide (t.take 2 = ['#', '#']) || decide (t.take 3 = ['#', '@', '#'])

/-- The body `[A-Za-z0-9._-]+\.[A-Za-z]{2,}` anchored at both ends of `r`:
all characters in the class, a trailing run of at least two letters,
preceded by a dot, with a nonempty part before that dot.  (The regex
engine must end the `[A-Za-z]{2,}` chunk exactly at the trailing letter
run, since the following regex character is never a letter.) -/
def domCoreB (r : List Char) : Bool :=
  let rev := r.reverse
  let run := rev.takeWhile isAlC
  decide (2 ≤ run.length) &&
  (match rev.drop run.length with
   | '.' :: rest => !rest.isEmpty
   | _ => false) &&
  r.all isHostC

/-- `R_HOSTS.match(s)`: `^\s*(?:0\.0\.0\.0|127\.0\.0\.1)\s+([A-Za-z0-9._-]+)\s*$`,
returning the captured host. -/
def hostsM (s : List Char) : Option (List Char) :=
  let t := s.dropWhile isWsC
  let rest? : Option (List Char) :=
    if ("0.0.0.0").data.isPrefixOf t then some (t.drop 7)
    else if ("127.0.0.1").data.isPrefixOf t then some (t.drop 9)
    else none
  match rest? with
  | none => none
  | some r =>
    match r with
    | [] => none
    | c :: _ =>
      if isWsC c then
        let r2 := r.dropWhile isWsC
        let h := r2.takeWhile isHostC
        if h ≠ [] ∧ (r2.dropWhile isHostC).all isWsC then some h else none
      else none

/-- `R_DOMAIN.match(s)`:
`^\s*(?:\|\|)?([A-Za-z0-9._-]+\.[A-Za-z]{2,})(?:\^)?\s*$`, returning the
captured domain. -/
def domainM (s : List Char) : Option (List Char) :=
  let t := s.dropWhile isWsC
  let t2? : Option (List Char) :=
    if t.take 2 = ['|', '|'] then some (t.drop 2)
    else
      match t with
      | '|' :: _ => none
      | _ => some t
  match t2? with
  | none => none
  | some r =>
    let r1 := dropTrail isWsC r
    let r2 :=
      match r1.getLast? with
      | some '^' => r1.dropLast
      | _ => r1
    if domCoreB r2 then some r2 else none

/-- The literal `$dnsrewrite=` of `R_DNSREWRITE`. -/
def rewKey : List Char := "$dnsrewrite=".data

/-- The literal `$dnstype=` of `R_DNSTYPE`. -/
def typKey : List Char := "$dnstype=".data

/-- Shared matcher for `R_DNSREWRITE` / `R_DNSTYPE`:
`^\s*\|\|(dom)\^\$key(val)\s*$` with `dom` as in `domCoreB` and `val`
matching `.+\s*$`.  For the newline-free lines this pipeline consumes
(`splitlines` output), the greedy `.+` captures the whole remainder, which
must be nonempty; a remainder with an interior newline never matches. -/
def modTail (key : List Char) (s : List Char) : Option (List Char × List Char) :=
  let t := s.dropWhile isWsC
  if t.take 2 = ['|', '|'] then
    let r := t.drop 2
    let m := r.takeWhile isHostC
    let rest := r.dropWhile isHostC
    if domCoreB m then
      match rest with
      | '^' :: r2 =>
        if key.isPrefixOf r2 then
          let v := r2.drop key.length
          if v ≠ [] ∧ '\n' ∉ v then some (m, v) else none
        else none
      | _ => none
    else none
  else none

/-- The typed record produced from one input line (spec `RuleRecord`;
hosts lines produce `blockD` like plain block rules). -/
inductive RuleRecord where
  | ignored : RuleRecord
  | blockD : List Char → RuleRecord
  | allowD : List Char → RuleRecord
  | rewD : List Char → List Char → RuleRecord
  | typD : List Char → List Char → RuleRecord
deriving DecidableEq

/-- The `R_DNSREWRITE` / `R_DNSTYPE` arm of the loop body of
`normalize_and_dedupe` (reached when no earlier pattern consumed the
line). -/
def classifyTail (keepIdna : Bool) (s : List Char) : RuleRecord :=
  match modTail rewKey s with
  | some (m, v) =>
    let d := if keepIdna then idna_norm m else lowerL m
    if isPSLike d then .ignored else .rewD d (stripWs v)
  | none =>
    match modTail typKey s with
    | some (m, v) =>
      let d := if keepIdna then idna_norm m else lowerL m
      if isPSLike d then .ignored else .typD d (stripWs v)
    | none => .ignored

/-- The loop body of `normalize_and_dedupe`: preprocess the raw line
(`strip()`, drop BOM characters), then try the patterns in source order:
blank/comment/cosmetic, hosts, plain domain (with the `$`/`/regex/`
guard, falling through on guard failure), dnsrewrite, dnstype. -/
def classifyLine (keepIdna : Bool) (raw : List Char) : RuleRecord :=
  let s := (stripWs raw).filter (fun c => !(decide (c = '﻿')))
  if blankB s || commentB s || cosmeticB s then .ignored
  else
    match hostsM s with
    | some h =>
      let d := if keepIdna then idna_norm h else lowerL h
      if isPSLike d then .ignored else .blockD d
    | none =>
      match domainM s with
      | some g =>
        if '$' ∉ s ∧ ¬(s.head? = some '/' ∧ s.getLast? = some '/') then
          let d := if keepIdna then idna_norm g else lowerL g
          if isPSLike d then .ignored
          else if s.take 2 = ['@', '@'] then .allowD d
          else .blockD d
        else classifyTail keepIdna s
      | none => classifyTail keepIdna s

/-- The aggregate state of `normalize_and_dedupe`: `allow_domains`,
`block_domains`, `dnsrewrite_map`, `dnstype_map`.  Sets are canonical
sorted lists; the maps are canonical sorted lists of (domain, value)
pairs. -/
structure Agg where
  allow : List (List Char)
  block : List (List Char)
  rew : List (List Char × List Char)
  typ : List (List Char × List Char)
deriving DecidableEq

/-- Ordered duplicate-free insertion with respect to a strict comparison. -/
def oinsert {α : Type} [DecidableEq α] (lt : α → α → Bool) (x : α) : List α → List α
  | [] => [x]
  | y :: ys => if lt x y then x :: y :: ys else if x = y then y :: ys else y :: oinsert lt x ys

/-- Strict lexicographic order on (domain, value) pairs: by domain, then
by value — the order in which `sorted` keys / `sorted` values enumerate a
`dict` of `set`s. -/
def pltb (a b : List Char × List Char) : Bool :=
  llt a.1 b.1 || (decide (a.1 = b.1) && llt a.2 b.2)

/-- The sortedness invariant of the canonical list representation of a
Python set: strictly increasing with respect to a strict comparison. -/
def OSorted {α : Type} (lt : α → α → Bool) (l : List α) : Prop :=
  List.Pairwise (fun a b => lt a b = true) l

/-- Set insertion for domain sets. -/
def dinsert (x : List Char) (l : List (List Char)) : List (List Char) := oinsert llt x l

/-- Insertion for the (domain, value) pair representation of
`dict`-of-`set`s (`map.setdefault(d, set()).add(v)`). -/
def pinsert (x : List Char × List Char) (l : List (List Char × List Char)) :
    List (List Char × List Char) := oinsert pltb x l

/-- One loop iteration of the aggregation phase: classify the line and
insert into the matching collections (a `dnsrewrite`/`dnstype` domain is
also inserted into the block set, as in the source). -/
def stepAgg (st : Agg) (raw : List Char) : Agg :=
  match classifyLine true raw with
  | .ignored => st
  | .blockD d => { st with block := dinsert d st.block }
  | .allowD d => { st with allow := dinsert d st.allow }
  | .rewD d v => { st with rew := pinsert (d, v) st.rew, block := dinsert d st.block }
  | .typD d v => { st with typ := pinsert (d, v) st.typ, block := dinsert d st.block }

/-- The aggregation loop of `normalize_and_dedupe` over all input lines
(with the configured `KEEP_IDNA = True`). -/
def aggregate (lines : List (List Char)) : Agg :=
  lines.foldl stepAgg ⟨[], [], [], []⟩

/-- `allowed(d)`: some allow-domain covers `d` (itself or as a strict
sub-label-suffix). -/
def allowedB (al : List (List Char)) (d : List Char) : Bool :=
  al.any (fun a => isSubB d a)

/-- The whitelist-priority step: when the allow set is nonempty, remove
every covered domain from the block set and from both maps. -/
def pruneAgg (st : Agg) : Agg :=
  if st.allow.isEmpty then st
  else
    { st with
      block := st.block.filter (fun d => !allowedB st.allow d),
      rew := st.rew.filter (fun p => !allowedB st.allow p.1),
      typ := st.typ.filter (fun p => !allowedB st.allow p.1) }

/-- `len(_split_labels(x))`, the first component of the sort key used in
the parent-collapse step. -/
def labb (d : List Char) : Nat := (splitLabels d).length

/-- The Python sort key `(len(_split_labels(x)), x)` as a strict order:
label count ascending, ties broken lexicographically. -/
def pyKeyLt (a b : List Char) : Bool :=
  decide (labb a < labb b) || (decide (labb a = labb b) && llt a b)

/-- Insertion step of sorting by `pyKeyLt`. -/
def kinsert (x : List Char) : List (List Char) → List (List Char)
  | [] => [x]
  | y :: ys => if pyKeyLt x y then x :: y :: ys else y :: kinsert x ys

/-- `sorted(members, key=lambda x: (len(_split_labels(x)), x))`.  The key
is injective (its second component is the string itself), so the result
does not depend on the iteration order of the member multiset. -/
def ksort (l : List (List Char)) : List (List Char) := l.foldr kinsert []

/-- The greedy keep loop of the parent-collapse step: a member is kept
unless some already-kept member subsumes it (`_is_subdomain_of`). -/
def keepGo (kept : List (List Char)) : List (List Char) → List (List Char)
  | [] => kept
  | d :: ds =>
    if kept.any (fun p => isSubB d p) then keepGo kept ds
    else keepGo (kept ++ [d]) ds

/-- The distinct registrable-domain values of a block set (the keys of
`by_reg`), as a canonical sorted list. -/
def regList (bl : List (List Char)) : List (List Char) :=
  bl.foldl (fun acc d => dinsert (regd d) acc) []

/-- The members of one registrable group (`by_reg[rd]`, as a set). -/
def groupMembers (bl : List (List Char)) (rd : List Char) : List (List Char) :=
  bl.filter (fun d => decide (regd d = rd))

/-- The parent-collapse step: group the block set by registrable domain,
sort each group by `(label count, lexicographic)`, keep greedily, and
take the union of the kept members (`new_blocks`), canonically sorted. -/
def collapseB (bl : List (List Char)) : List (List Char) :=
  let keptAll :=
    (regList bl).foldl (fun acc rd => acc ++ keepGo [] (ksort (groupMembers bl rd))) []
  keptAll.foldl (fun acc d => dinsert d acc) []

/-- The conflict-resolution phase of `normalize_and_dedupe`: whitelist
pruning, then (when enabled and the block set is nonempty) parent
collapse of the block set. -/
def resolveAgg (enable : Bool) (st : Agg) : Agg :=
  let st1 := pruneAgg st
  if enable ∧ st1.block ≠ [] then { st1 with block := collapseB st1.block } else st1

/-- `f"||{d}^"`. -/
def ruleOfBlock (d : List Char) : List Char := ('|' :: '|' :: d) ++ ['^']

/-- `f"||{d}^$dnsrewrite={v}"`. -/
def ruleOfRew (p : List Char × List Char) : List Char :=
  ('|' :: '|' :: p.1) ++ ('^' :: (rewKey ++ p.2))

/-- `f"||{d}^$dnstype={v}"`. -/
def ruleOfTyp (p : List Char × List Char) : List Char :=
  ('|' :: '|' :: p.1) ++ ('^' :: (typKey ++ p.2))

/-- `block_rules`: block rules over the sorted block set, then rewrite
rules sorted by (domain, value), then dnstype rules likewise. -/
def blockRules (st : Agg) : List (List Char) :=
  st.block.map ruleOfBlock ++ st.rew.map ruleOfRew ++ st.typ.map ruleOfTyp

/-- `domains`: the sorted union of the final block set and the key sets
of both maps. -/
def domainsOut (st : Agg) : List (List Char) :=
  (st.rew.map Prod.fst ++ st.typ.map Prod.fst).foldl (fun acc d => dinsert d acc) st.block

/-- The resolved state of a full run on the given lines, with the
configured `ENABLE_PARENT_COLLAPSE = True`. -/
def pipeState (lines : List (List Char)) : Agg :=
  resolveAgg true (aggregate lines)

/-- The `block_rules` output of `normalize_and_dedupe` on the given lines. -/
def pipeRules (lines : List (List Char)) : List (List Char) :=
  blockRules (pipeState lines)

/-- The `domains` output of `normalize_and_dedupe` on the given lines. -/
def pipeDomains (lines : List (List Char)) : List (List Char) :=
  domainsOut (pipeState lines)

/-- The lines of the `header(title, sources)` block, including the
generation timestamp line. -/
def headerL (title now : List Char) (sources : List (List Char)) : List (List Char) :=
  (('!' :: ' ' :: title) :: ("! Generated at: ".data ++ now) :: "! Sources:".data ::
    sources.map (fun s => "!  - ".data ++ s)) ++
  ["! Notes:".data,
   "! - AGH-only DNS rules retained (||, @@||, $dnsrewrite, $dnstype, hosts).".data,
   "! - Cosmetic rules (##, #@#) and browser-only modifiers are removed.".data,
   "! - Whitelist (@@) wins over block/dnsrewrite/dnstype for domain & subdomains.".data,
   []]

/-- `"\n".join(h)`. -/
def nlJoin (ls : List (List Char)) : List Char := (ls.intersperse ['\n']).flatten

/-- The title passed to `header` in `write_outputs`. -/
def adblockTitle : List Char := "Unified Adblock list for AdGuard Home (DNS-only)".data

/-- The bytes of `dist/merged_adblock.txt`: header (with the run
timestamp `now`) followed by one rule per line. -/
def adblockFile (now : List Char) (sources lines : List (List Char)) : List Char :=
  nlJoin (headerL adblockTitle now sources) ++
  ((pipeRules lines).map (fun r => r ++ ['\n'])).flatten

/-- The bytes of `dist/merged_hosts.txt`. -/
def hostsFile (lines : List (List Char)) : List Char :=
  "# 0.0.0.0 hosts merged (AGH-compatible)\n".data ++
  ((pipeDomains lines).map (fun d => "0.0.0.0 ".data ++ d ++ ['\n'])).flatten

/-- The bytes of `dist/merged_domains.txt`. -/
def domainsFile (lines : List (List Char)) : List Char :=
  ((pipeDomains lines).map (fun d => d ++ ['\n'])).flatten

/-- The three output files of one run: `write_outputs` invoked with the
run timestamp `now` taken at header-rendering time. -/
def runFiles (now : List Char) (sources lines : List (List Char)) :
    List Char × List Char × List Char :=
  (adblockFile now sources lines, hostsFile lines, domainsFile lines)

/-- A domain in canonical form: fixed by lowercasing and by dot
stripping (every output of `idna_norm` has this shape). -/
def NormalDom (d : List Char) : Prop := lowerL d = d ∧ stripDots d = d

/-- The invariant of aggregate states reachable by the pipeline: all four
collections canonically sorted, and every stored domain normalized and
accepted by the suffix guard. -/
def GoodSt (st : Agg) : Prop :=
  OSorted llt st.allow ∧ OSorted llt st.block ∧ OSorted pltb st.rew ∧ OSorted pltb st.typ ∧
  (∀ d ∈ st.allow, NormalDom d ∧ isPSLike d = false) ∧
  (∀ d ∈ st.block, NormalDom d ∧ isPSLike d = false) ∧
  (∀ p ∈ st.rew, NormalDom p.1 ∧ isPSLike p.1 = false) ∧
  (∀ p ∈ st.typ, NormalDom p.1 ∧ isPSLike p.1 = false)

/-! ## Order facts for the canonical set representation -/

theorem llt_irrefl (a : List Char) : llt a a = false := by
  simp [llt]

theorem llt_trans {a b c : List Char} (h1 : llt a b = true) (h2 : llt b c = true) :
    llt a c = true := by
  simp only [llt, decide_eq_true_eq] at h1 h2 ⊢
  exact lt_trans h1 h2

theorem llt_connex {a b : List Char} (h1 : llt a b = false) (h2 : llt b a = false) :
    a = b := by
  simp only [llt, decide_eq_false_iff_not] at h1 h2
  exact le_antisymm (not_lt.mp h2) (not_lt.mp h1)

theorem pltb_irrefl (a : List Char × List Char) : pltb a a = false := by
  simp [pltb, llt_irrefl]

theorem pltb_trans {a b c : List Char × List Char} (h1 : pltb a b = true)
    (h2 : pltb b c = true) : pltb a c = true := by
  simp only [pltb, llt, Bool.or_eq_true, Bool.and_eq_true, decide_eq_true_eq] at h1 h2 ⊢
  rcases h1 with h1 | ⟨h1e, h1v⟩ <;> rcases h2 with h2 | ⟨h2e, h2v⟩
  · exact Or.inl (lt_trans h1 h2)
  · exact Or.inl (h2e ▸ h1)
  · exact Or.inl (h1e ▸ h2)
  · exact Or.inr ⟨h1e.trans h2e, lt_trans h1v h2v⟩

theorem pltb_connex {a b : List Char × List Char} (h1 : pltb a b = false)
    (h2 : pltb b a = false) : a = b := by
  simp only [pltb, llt, Bool.or_eq_false_iff, Bool.and_eq_false_iff,
    decide_eq_false_iff_not] at h1 h2
  obtain ⟨h1l, h1r⟩ := h1
  obtain ⟨h2l, h2r⟩ := h2
  have he : a.1 = b.1 := le_antisymm (not_lt.mp h2l) (not_lt.mp h1l)
  have hv : a.2 = b.2 := by
    rcases h1r with h | h
    · exact absurd he h
    · rcases h2r with h2 | h2
      · exact absurd he.symm h2
      · exact le_antisymm (not_lt.mp h2) (not_lt.mp h)
  exact Prod.ext he hv

section OSet

variable {α : Type} [DecidableEq α] {lt : α → α → Bool}

theorem mem_oinsert (x a : α) (l : List α) :
    a ∈ oinsert lt x l ↔ a = x ∨ a ∈ l := by
  induction l with
  | nil => simp [oinsert]
  | cons y ys ih =>
    simp only [oinsert]
    split
    · simp only [List.mem_cons]
    · split
      · next h2 =>
        subst h2
        simp only [List.mem_cons]
        tauto
      · simp only [List.mem_cons, ih]
        tauto

omit [DecidableEq α] in
theorem osorted_nodup (hirr : ∀ a : α, lt a a = false) {l : List α}
    (hs : OSorted lt l) : l.Nodup := by
  refine hs.imp ?_
  intro a b h
  rintro rfl
  rw [hirr] at h
  cases h

theorem osorted_oinsert (hirr : ∀ a : α, lt a a = false)
    (htr : ∀ {a b c : α}, lt a b = true → lt b c = true → lt a c = true)
    (hco : ∀ {a b : α}, lt a b = false → lt b a = false → a = b)
    (x : α) {l : List α} (hs : OSorted lt l) : OSorted lt (oinsert lt x l) := by
  induction l with
  | nil => simp [oinsert, OSorted]
  | cons y ys ih =>
    have hy := (List.pairwise_cons.mp hs).1
    have hys := (List.pairwise_cons.mp hs).2
    by_cases h1 : lt x y = true
    · simp only [oinsert, h1, if_true]
      refine List.pairwise_cons.mpr ⟨?_, hs⟩
      intro b hb
      rcases List.mem_cons.mp hb with rfl | hb
      · exact h1
      · exact htr h1 (hy b hb)
    · by_cases h2 : x = y
      · subst h2
        simpa [oinsert, h1] using hs
      · simp only [oinsert, h1, h2, if_false]
        refine List.pairwise_cons.mpr ⟨?_, ih hys⟩
        intro b hb
        rcases (mem_oinsert x b ys).mp hb with hbx | hb
        · subst hbx
          cases hyx : lt y b
          · exact absurd (hco (by simpa using h1) hyx) h2
          · rfl
        · exact hy b hb

omit [DecidableEq α] in
theorem osorted_eq_of_mem_iff (hirr : ∀ a : α, lt a a = false)
    (htr : ∀ {a b c : α}, lt a b = true → lt b c = true → lt a c = true)
    {l₁ l₂ : List α} (h1 : OSorted lt l₁) (h2 : OSorted lt l₂)
    (hm : ∀ a, a ∈ l₁ ↔ a ∈ l₂) : l₁ = l₂ := by
  haveI : IsAntisymm α (fun a b => lt a b = true) :=
    ⟨fun a b hab hba => absurd (htr hab hba) (by simp [hirr])⟩
  exact List.eq_of_perm_of_sorted
    ((List.perm_ext_iff_of_nodup (osorted_nodup hirr h1) (osorted_nodup hirr h2)).mpr hm)
    h1 h2

theorem oinsert_comm (hirr : ∀ a : α, lt a a = false)
    (htr : ∀ {a b c : α}, lt a b = true → lt b c = true → lt a c = true)
    (hco : ∀ {a b : α}, lt a b = false → lt b a = false → a = b)
    (x y : α) {l : List α} (hs : OSorted lt l) :
    oinsert lt x (oinsert lt y l) = oinsert lt y (oinsert lt x l) := by
  refine osorted_eq_of_mem_iff hirr htr
    (osorted_oinsert hirr htr hco x (osorted_oinsert hirr htr hco y hs))
    (osorted_oinsert hirr htr hco y (osorted_oinsert hirr htr hco x hs)) ?_
  intro a
  simp only [mem_oinsert]
  tauto

theorem mem_foldl_oinsert {β : Type} (f : β → α) (l : List β) (init : List α) (a : α) :
    a ∈ l.foldl (fun acc d => oinsert lt (f d) acc) init ↔
      (∃ d ∈ l, f d = a) ∨ a ∈ init := by
  induction l generalizing init with
  | nil => simp
  | cons d ds ih =>
    simp only [List.foldl_cons, ih, mem_oinsert, List.mem_cons]
    constructor
    · rintro (⟨e, he, rfl⟩ | rfl | h)
      · exact Or.inl ⟨e, Or.inr he, rfl⟩
      · exact Or.inl ⟨d, Or.inl rfl, rfl⟩
      · exact Or.inr h
    · rintro (⟨e, (rfl | he), rfl⟩ | h)
      · exact Or.inr (Or.inl rfl)
      · exact Or.inl ⟨e, he, rfl⟩
      · exact Or.inr (Or.inr h)

theorem osorted_foldl_oinsert (hirr : ∀ a : α, lt a a = false)
    (htr : ∀ {a b c : α}, lt a b = true → lt b c = true → lt a c = true)
    (hco : ∀ {a b : α}, lt a b = false → lt b a = false → a = b)
    {β : Type} (f : β → α) (l : List β) {init : List α} (hs : OSorted lt init) :
    OSorted lt (l.foldl (fun acc d => oinsert lt (f d) acc) init) := by
  induction l generalizing init with
  | nil => exact hs
  | cons d ds ih => exact ih (osorted_oinsert hirr htr hco (f d) hs)

end OSet

/-! ## Character case and strip lemmas -/

theorem charToNat_ofNat {n : Nat} (h : Nat.isValidChar n) : (Char.ofNat n).toNat = n := by
  rw [Char.ofNat, dif_pos h]
  simp [Char.ofNatAux, Char.toNat, UInt32.toNat, BitVec.toNat_ofNatLt]

theorem toLower_toLower (c : Char) : c.toLower.toLower = c.toLower := by
  unfold Char.toLower
  by_cases h : c.toNat ≥ 65 ∧ c.toNat ≤ 90
  · rw [if_pos h]
    have hv : Nat.isValidChar (c.toNat + 32) := Or.inl (by omega)
    rw [charToNat_ofNat hv]
    rw [if_neg (by omega)]
  · rw [if_neg h, if_neg h]

theorem isDotC_toLower (c : Char) : isDotC c.toLower = isDotC c := by
  unfold isDotC Char.toLower
  by_cases h : c.toNat ≥ 65 ∧ c.toNat ≤ 90
  · rw [if_pos h]
    have hv : Nat.isValidChar (c.toNat + 32) := Or.inl (by omega)
    have h1 : (Char.ofNat (c.toNat + 32)) ≠ '.' := by
      intro he
      have h2 := congrArg Char.toNat he
      rw [charToNat_ofNat hv] at h2
      have h3 : c.toNat + 32 = 46 := h2
      omega
    have h2 : c ≠ '.' := by
      intro he
      subst he
      simp at h
    simp [h1, h2]
  · rw [if_neg h]

theorem lowerL_idem (l : List Char) : lowerL (lowerL l) = lowerL l := by
  simp only [lowerL, List.map_map]
  congr 1
  funext c
  exact toLower_toLower c

theorem dropWhile_idem (p : Char → Bool) (l : List Char) :
    (l.dropWhile p).dropWhile p = l.dropWhile p := by
  induction l with
  | nil => rfl
  | cons c cs ih =>
    by_cases h : p c
    · simp [List.dropWhile_cons, h, ih]
    · simp [List.dropWhile_cons, h]

theorem dropWhile_head_false {p : Char → Bool} {l : List Char} {c : Char} {t : List Char}
    (h : l.dropWhile p = c :: t) : p c = false := by
  have h2 := List.head?_dropWhile_not p l
  rw [h] at h2
  simpa using h2

theorem dropWhile_eq_self_of_prefix {p : Char → Bool} {t l : List Char}
    (hpre : t <+: l) (hl : l.dropWhile p = l) : t.dropWhile p = t := by
  cases t with
  | nil => rfl
  | cons c cs =>
    obtain ⟨u, hu⟩ := hpre
    cases l with
    | nil => cases hu
    | cons d ds =>
      have hc : c = d := by
        have h3 := congrArg List.head? hu
        simpa using h3
      subst hc
      have hd : p c = false := by
        rw [List.dropWhile_cons] at hl
        by_cases h : p c
        · rw [if_pos h] at hl
          have hlen := congrArg List.length hl
          have hle : (List.dropWhile p ds).length ≤ ds.length :=
            (List.dropWhile_suffix p).sublist.length_le
          simp at hlen
          omega
        · simpa using h
      rw [List.dropWhile_cons, if_neg (by simp [hd])]

theorem dropTrail_prefix_self (p : Char → Bool) (l : List Char) : dropTrail p l <+: l := by
  have h : List.dropWhile p l.reverse <:+ l.reverse := List.dropWhile_suffix p
  have h2 := List.reverse_prefix.mpr h
  simpa [dropTrail] using h2

theorem dropTrail_idem (p : Char → Bool) (l : List Char) :
    dropTrail p (dropTrail p l) = dropTrail p l := by
  unfold dropTrail
  rw [List.reverse_reverse, dropWhile_idem]

theorem pstrip_dropWhile (p : Char → Bool) (l : List Char) :
    (pstrip p l).dropWhile p = pstrip p l :=
  dropWhile_eq_self_of_prefix (dropTrail_prefix_self p _) (dropWhile_idem p l)

theorem pstrip_idem (p : Char → Bool) (l : List Char) :
    pstrip p (pstrip p l) = pstrip p l := by
  show dropTrail p ((pstrip p l).dropWhile p) = pstrip p l
  rw [pstrip_dropWhile]
  exact dropTrail_idem p _

theorem lowerL_dropWhile_dot (l : List Char) :
    (lowerL l).dropWhile isDotC = lowerL (l.dropWhile isDotC) := by
  unfold lowerL
  rw [List.dropWhile_map]
  have h : (isDotC ∘ Char.toLower) = isDotC := funext isDotC_toLower
  rw [h]

theorem lowerL_reverse (l : List Char) : (lowerL l).reverse = lowerL l.reverse := by
  unfold lowerL
  exact (List.map_reverse _ _).symm

theorem stripDots_lowerL (l : List Char) : stripDots (lowerL l) = lowerL (stripDots l) := by
  unfold stripDots pstrip dropTrail
  rw [lowerL_dropWhile_dot, lowerL_reverse, lowerL_dropWhile_dot, lowerL_reverse]

theorem idnaEncode_eq_some {d e : List Char} (h : idnaEncode d = some e) : e = d := by
  unfold idnaEncode at h
  split at h
  · next h0 =>
    subst h0
    exact (Option.some_injective _ h).symm
  · split at h
    · split at h
      · exact (Option.some_injective _ h).symm
      · cases h
    · cases h

theorem idna_norm_eq (raw : List Char) :
    idna_norm raw = lowerL (stripDots (stripWs raw)) := by
  have h : ∀ o : Option (List Char), o = idnaEncode (stripDots (stripWs raw)) →
      (match o with
       | some e => lowerL e
       | none => lowerL (stripDots (stripWs raw))) = lowerL (stripDots (stripWs raw)) := by
    intro o ho
    cases o with
    | none => rfl
    | some e => rw [idnaEncode_eq_some ho.symm]
  exact h _ rfl

theorem idna_norm_lower (raw : List Char) : lowerL (idna_norm raw) = idna_norm raw := by
  rw [idna_norm_eq, lowerL_idem]

theorem idna_norm_stripDots (raw : List Char) :
    stripDots (idna_norm raw) = idna_norm raw := by
  rw [idna_norm_eq, stripDots_lowerL]
  show lowerL (pstrip isDotC (pstrip isDotC (stripWs raw))) = _
  rw [pstrip_idem]
  rfl

theorem pstrip_head?_false {p : Char → Bool} {l : List Char} {c : Char}
    (h : (pstrip p l).head? = some c) : p c = false := by
  cases he : pstrip p l with
  | nil => rw [he] at h; cases h
  | cons d t =>
    rw [he] at h
    have hdc : d = c := by simpa using h
    subst hdc
    have hpre : pstrip p l <+: l.dropWhile p := dropTrail_prefix_self p _
    obtain ⟨u, hu⟩ := hpre
    rw [he] at hu
    exact dropWhile_head_false hu.symm

theorem pstrip_getLast?_false {p : Char → Bool} {l : List Char} {c : Char}
    (h : (pstrip p l).getLast? = some c) : p c = false := by
  unfold pstrip dropTrail at h
  rw [List.getLast?_reverse] at h
  cases he : (l.dropWhile p).reverse.dropWhile p with
  | nil => rw [he] at h; cases h
  | cons d t =>
    rw [he] at h
    have hdc : d = c := by simpa using h
    subst hdc
    exact dropWhile_head_false he

/-! ## Subdomain and label-count lemmas -/

theorem isSubB_iff_strip {d a : List Char} (hd : stripDots d = d) (ha : stripDots a = a) :
    isSubB d a = true ↔ (d = a ∨ ('.' :: a) <:+ d) := by
  unfold isSubB
  rw [hd, ha]
  rw [Bool.or_eq_true, decide_eq_true_eq, List.isSuffixOf_iff_suffix]

theorem splitD_ne_nil (l : List Char) : splitD l ≠ [] := by
  cases l with
  | nil => simp [splitD]
  | cons c cs =>
    simp only [splitD]
    by_cases h : c = '.'
    · simp [h]
    · rw [if_neg h]
      cases hcs : splitD cs <;> simp

theorem splitD_cons_dot (cs : List Char) : splitD ('.' :: cs) = [] :: splitD cs := by
  simp [splitD]

theorem splitD_cons_ne {c : Char} (h : c ≠ '.') (cs : List Char) :
    splitD (c :: cs) =
      match splitD cs with
      | [] => [[c]]
      | l :: ls => (c :: l) :: ls := by
  simp [splitD, h]

theorem splitD_append_dot (y p : List Char) :
    splitD (y ++ '.' :: p) = splitD y ++ splitD p := by
  induction y with
  | nil => simp [splitD_cons_dot, splitD]
  | cons c cs ih =>
    rw [List.cons_append]
    by_cases h : c = '.'
    · subst h
      rw [splitD_cons_dot, splitD_cons_dot, ih]
      rfl
    · obtain ⟨m, ms, hm⟩ : ∃ m ms, splitD cs = m :: ms := by
        cases hcs : splitD cs with
        | nil => exact absurd hcs (splitD_ne_nil cs)
        | cons m ms => exact ⟨m, ms, rfl⟩
      rw [splitD_cons_ne h, splitD_cons_ne h, ih, hm]
      rfl

theorem labb_lt_of_suffix {p x : List Char} (hx : stripDots x = x) (hp : stripDots p = p)
    (h : ('.' :: p) <:+ x) : labb p < labb x := by
  obtain ⟨y, hy⟩ := h
  unfold labb splitLabels
  rw [hx, hp, ← hy, splitD_append_dot]
  have h1 : 1 ≤ (splitD y).length := List.length_pos.mpr (splitD_ne_nil y)
  simp only [List.length_append]
  omega

theorem suffix_dot_trans {x p q : List Char} (h1 : ('.' :: p) <:+ x)
    (h2 : ('.' :: q) <:+ p) : ('.' :: q) <:+ x := by
  have h3 : p <:+ ('.' :: p) := ⟨['.'], rfl⟩
  exact (h2.trans h3).trans h1

theorem splitD_length_le_one_iff (l : List Char) : (splitD l).length ≤ 1 ↔ '.' ∉ l := by
  induction l with
  | nil => simp [splitD]
  | cons c cs ih =>
    by_cases h : c = '.'
    · subst h
      have h1 : 1 ≤ (splitD cs).length := List.length_pos.mpr (splitD_ne_nil cs)
      rw [splitD_cons_dot]
      simp only [List.length_cons, List.mem_cons]
      constructor
      · intro hle
        exfalso
        omega
      · intro hni
        exact absurd (Or.inl trivial) hni
    · rw [splitD_cons_ne h]
      obtain ⟨m, ms, hm⟩ : ∃ m ms, splitD cs = m :: ms := by
        cases hcs : splitD cs with
        | nil => exact absurd hcs (splitD_ne_nil cs)
        | cons m ms => exact ⟨m, ms, rfl⟩
      rw [hm]
      rw [hm] at ih
      simp only [List.length_cons] at ih ⊢
      simp only [List.mem_cons]
      constructor
      · intro hle hin
        rcases hin with hc | hin
        · exact h hc.symm
        · exact (ih.mp hle) hin
      · intro hni
        exact ih.mpr (fun hin => hni (Or.inr hin))

/-! ## Sort key facts and the greedy collapse loop -/

theorem pyKeyLt_irrefl (a : List Char) : pyKeyLt a a = false := by
  simp [pyKeyLt, llt_irrefl]

theorem pyKeyLt_trans {a b c : List Char} (h1 : pyKeyLt a b = true)
    (h2 : pyKeyLt b c = true) : pyKeyLt a c = true := by
  simp only [pyKeyLt, Bool.or_eq_true, Bool.and_eq_true, decide_eq_true_eq] at h1 h2 ⊢
  rcases h1 with h1 | ⟨h1e, h1v⟩ <;> rcases h2 with h2 | ⟨h2e, h2v⟩
  · exact Or.inl (Nat.lt_trans h1 h2)
  · exact Or.inl (h2e ▸ h1)
  · exact Or.inl (h1e ▸ h2)
  · exact Or.inr ⟨h1e.trans h2e, llt_trans h1v h2v⟩

theorem pyKeyLt_connex {a b : List Char} (h1 : pyKeyLt a b = false)
    (h2 : pyKeyLt b a = false) : a = b := by
  simp only [pyKeyLt, Bool.or_eq_false_iff, Bool.and_eq_false_iff,
    decide_eq_false_iff_not] at h1 h2
  obtain ⟨h1l, h1r⟩ := h1
  obtain ⟨h2l, h2r⟩ := h2
  have he : labb a = labb b := by omega
  rcases h1r with h | h
  · exact absurd he h
  · rcases h2r with h2x | h2x
    · exact absurd he.symm h2x
    · exact llt_connex h h2x

theorem mem_kinsert (x a : List Char) (l : List (List Char)) :
    a ∈ kinsert x l ↔ a = x ∨ a ∈ l := by
  induction l with
  | nil => simp [kinsert]
  | cons y ys ih =>
    simp only [kinsert]
    split
    · simp only [List.mem_cons]
    · simp only [List.mem_cons, ih]
      tauto

theorem mem_ksort (a : List Char) (l : List (List Char)) : a ∈ ksort l ↔ a ∈ l := by
  induction l with
  | nil => simp [ksort]
  | cons c cs ih =>
    show a ∈ kinsert c (ksort cs) ↔ _
    rw [mem_kinsert]
    simp [ih]

theorem kinsert_pairwise {x : List Char} {l : List (List Char)}
    (hx : x ∉ l) (hs : List.Pairwise (fun a b => pyKeyLt a b = true) l) :
    List.Pairwise (fun a b => pyKeyLt a b = true) (kinsert x l) := by
  induction l with
  | nil => simp [kinsert]
  | cons y ys ih =>
    have hy := (List.pairwise_cons.mp hs).1
    have hys := (List.pairwise_cons.mp hs).2
    have hxy : x ≠ y := fun he => hx (he ▸ List.mem_cons_self y ys)
    have hxys : x ∉ ys := fun hm => hx (List.mem_cons_of_mem y hm)
    simp only [kinsert]
    by_cases h : pyKeyLt x y = true
    · rw [if_pos h]
      refine List.pairwise_cons.mpr ⟨?_, hs⟩
      intro b hb
      rcases List.mem_cons.mp hb with rfl | hb
      · exact h
      · exact pyKeyLt_trans h (hy b hb)
    · rw [if_neg h]
      refine List.pairwise_cons.mpr ⟨?_, ih hxys hys⟩
      intro b hb
      rcases (mem_kinsert x b ys).mp hb with hbx | hb
      · subst hbx
        cases hyb : pyKeyLt y b
        · exact absurd (pyKeyLt_connex (by simpa using h) hyb) hxy
        · rfl
      · exact hy b hb

theorem ksort_pairwise {l : List (List Char)} (hnd : l.Nodup) :
    List.Pairwise (fun a b => pyKeyLt a b = true) (ksort l) := by
  induction l with
  | nil => simp [ksort]
  | cons c cs ih =>
    have hc : c ∉ cs := (List.nodup_cons.mp hnd).1
    have hcs : cs.Nodup := (List.nodup_cons.mp hnd).2
    show List.Pairwise _ (kinsert c (ksort cs))
    exact kinsert_pairwise (fun hm => hc ((mem_ksort c cs).mp hm)) (ih hcs)

theorem keepGo_mem_of_mem_kept {x : List Char} :
    ∀ {kept ms : List (List Char)}, x ∈ kept → x ∈ keepGo kept ms := by
  intro kept ms
  induction ms generalizing kept with
  | nil => intro h; exact h
  | cons d ds ih =>
    intro h
    simp only [keepGo]
    split
    · exact ih h
    · exact ih (List.mem_append_left _ h)

theorem keepGo_mem_src {x : List Char} :
    ∀ {kept ms : List (List Char)}, x ∈ keepGo kept ms → x ∈ kept ∨ x ∈ ms := by
  intro kept ms
  induction ms generalizing kept with
  | nil => intro h; exact Or.inl h
  | cons d ds ih =>
    intro h
    simp only [keepGo] at h
    split at h
    · rcases ih h with h | h
      · exact Or.inl h
      · exact Or.inr (List.mem_cons_of_mem d h)
    · rcases ih h with h | h
      · rcases List.mem_append.mp h with h | h
        · exact Or.inl h
        · exact Or.inr (List.mem_cons.mpr (Or.inl (List.mem_singleton.mp h)))
      · exact Or.inr (List.mem_cons_of_mem d h)

theorem keepGo_mem_of_undominated {x : List Char} :
    ∀ {kept ms : List (List Char)}, x ∈ ms →
      (∀ p ∈ kept, isSubB x p = false) →
      (∀ p ∈ ms, p ≠ x → isSubB x p = false) →
      x ∈ keepGo kept ms := by
  intro kept ms
  induction ms generalizing kept with
  | nil => intro h; cases h
  | cons d ds ih =>
    intro hm hk hms
    simp only [keepGo]
    by_cases hxd : x = d
    · subst hxd
      have hany : (kept.any fun p => isSubB x p) = false := by
        simp only [List.any_eq_false]
        intro p hp
        simp [hk p hp]
      rw [hany]
      simp only [Bool.false_eq_true, if_false]
      exact keepGo_mem_of_mem_kept (List.mem_append_right _ (List.mem_singleton.mpr rfl))
    · have hm2 : x ∈ ds := by
        rcases List.mem_cons.mp hm with h | h
        · exact absurd h hxd
        · exact h
      split
      · exact ih hm2 hk (fun p hp hpx => hms p (List.mem_cons_of_mem d hp) hpx)
      · refine ih hm2 ?_ (fun p hp hpx => hms p (List.mem_cons_of_mem d hp) hpx)
        intro p hp
        rcases List.mem_append.mp hp with hp | hp
        · exact hk p hp
        · rw [List.mem_singleton.mp hp]
          exact hms d (List.mem_cons_self d ds) (fun he => hxd he.symm)

theorem keepGo_not_mem_of_dominated {x p : List Char} :
    ∀ {kept ms : List (List Char)}, p ∈ kept → isSubB x p = true → x ∉ kept →
      x ∉ keepGo kept ms := by
  intro kept ms
  induction ms generalizing kept with
  | nil => intro hp _ hx; exact hx
  | cons d ds ih =>
    intro hp hsub hx
    simp only [keepGo]
    by_cases hany : (kept.any fun q => isSubB d q) = true
    · rw [hany]
      simp only [if_true]
      exact ih hp hsub hx
    · rw [Bool.not_eq_true] at hany
      rw [hany]
      simp only [Bool.false_eq_true, if_false]
      have hxd : x ≠ d := by
        intro he
        subst he
        have := List.any_eq_false.mp hany p hp
        rw [hsub] at this
        simp at this
      exact ih (List.mem_append_left _ hp) hsub
        (fun hm => by
          rcases List.mem_append.mp hm with hm | hm
          · exact hx hm
          · exact hxd (List.mem_singleton.mp hm))

theorem exists_min_labb {l : List (List Char)} (h : l ≠ []) :
    ∃ a ∈ l, ∀ b ∈ l, labb a ≤ labb b := by
  induction l with
  | nil => exact absurd rfl h
  | cons d ds ih =>
    cases ds with
    | nil =>
      refine ⟨d, List.mem_cons_self d [], ?_⟩
      intro b hb
      rw [List.mem_singleton.mp hb]
    | cons e es =>
      obtain ⟨m, hm, hmin⟩ := ih (by simp)
      by_cases hle : labb d ≤ labb m
      · refine ⟨d, List.mem_cons_self _ _, ?_⟩
        intro b hb
        rcases List.mem_cons.mp hb with rfl | hb
        · exact le_refl _
        · exact hle.trans (hmin b hb)
      · refine ⟨m, List.mem_cons_of_mem d hm, ?_⟩
        intro b hb
        rcases List.mem_cons.mp hb with rfl | hb
        · omega
        · exact hmin b hb

theorem keepGo_antichain :
    ∀ {ms kept : List (List Char)},
      List.Pairwise (fun a b => pyKeyLt a b = true) ms →
      (∀ d, d ∈ kept ∨ d ∈ ms → stripDots d = d) →
      (∀ p ∈ kept, ∀ q ∈ kept, p ≠ q → isSubB p q = false) →
      (∀ p ∈ kept, ∀ q ∈ ms, isSubB p q = false) →
      ∀ p ∈ keepGo kept ms, ∀ q ∈ keepGo kept ms, p ≠ q → isSubB p q = false := by
  intro ms
  induction ms with
  | nil =>
    intro kept _ _ hkA _ p hp q hq hne
    exact hkA p hp q hq hne
  | cons d ds ih =>
    intro kept hsort hstrip hkA hkF
    have hd := (List.pairwise_cons.mp hsort).1
    have hds := (List.pairwise_cons.mp hsort).2
    simp only [keepGo]
    by_cases hany : (kept.any fun q => isSubB d q) = true
    · rw [hany]
      simp only [if_true]
      exact ih hds
        (fun e he => hstrip e (by rcases he with he | he
                                  · exact Or.inl he
                                  · exact Or.inr (List.mem_cons_of_mem d he)))
        hkA
        (fun p hp q hq => hkF p hp q (List.mem_cons_of_mem d hq))
    · rw [Bool.not_eq_true] at hany
      rw [hany]
      simp only [Bool.false_eq_true, if_false]
      have hanyF := List.any_eq_false.mp hany
      refine ih hds ?_ ?_ ?_
      · intro e he
        rcases he with he | he
        · rcases List.mem_append.mp he with he | he
          · exact hstrip e (Or.inl he)
          · rw [List.mem_singleton.mp he]
            exact hstrip d (Or.inr (List.mem_cons_self d ds))
        · exact hstrip e (Or.inr (List.mem_cons_of_mem d he))
      · intro p hp q hq hne
        rcases List.mem_append.mp hp with hp | hp
        · rcases List.mem_append.mp hq with hq | hq
          · exact hkA p hp q hq hne
          · rw [List.mem_singleton.mp hq]
            exact hkF p hp d (List.mem_cons_self d ds)
        · rcases List.mem_append.mp hq with hq | hq
          · rw [List.mem_singleton.mp hp]
            have := hanyF q hq
            simpa using this
          · exact absurd ((List.mem_singleton.mp hp).trans
              (List.mem_singleton.mp hq).symm) hne
      · intro p hp q hq
        rcases List.mem_append.mp hp with hp | hp
        · exact hkF p hp q (List.mem_cons_of_mem d hq)
        · rw [List.mem_singleton.mp hp]
          cases hsub : isSubB d q
          · rfl
          · exfalso
            have hdq : pyKeyLt d q = true := hd q hq
            have hsd : stripDots d = d := hstrip d (Or.inr (List.mem_cons_self d ds))
            have hsq : stripDots q = q := hstrip q (Or.inr (List.mem_cons_of_mem d hq))
            rcases (isSubB_iff_strip hsd hsq).mp hsub with he | hsfx
            · subst he
              rw [pyKeyLt_irrefl] at hdq
              cases hdq
            · have hlt : labb q < labb d := labb_lt_of_suffix hsd hsq hsfx
              simp only [pyKeyLt, Bool.or_eq_true, Bool.and_eq_true,
                decide_eq_true_eq] at hdq
              rcases hdq with hdq | ⟨hdq, _⟩ <;> omega

theorem keepGo_mem_iff {ms : List (List Char)}
    (hsort : List.Pairwise (fun a b => pyKeyLt a b = true) ms)
    (hstrip : ∀ d ∈ ms, stripDots d = d) (x : List Char) :
    x ∈ keepGo [] ms ↔ (x ∈ ms ∧ ∀ p ∈ ms, p ≠ x → isSubB x p = false) := by
  constructor
  · intro hmem
    have hx : x ∈ ms := by
      rcases keepGo_mem_src hmem with h | h
      · cases h
      · exact h
    refine ⟨hx, ?_⟩
    by_contra hcon
    push_neg at hcon
    obtain ⟨p, hp, hpx, hsubne⟩ := hcon
    have hsub : isSubB x p = true := by
      cases h : isSubB x p
      · exact absurd h hsubne
      · rfl
    -- minimal dominator of x in ms
    have hD : p ∈ ms.filter (fun q => decide (q ≠ x) && isSubB x q) := by
      rw [List.mem_filter]
      exact ⟨hp, by simp [hpx, hsub]⟩
    obtain ⟨p0, hp0, hmin⟩ :=
      exists_min_labb (l := ms.filter (fun q => decide (q ≠ x) && isSubB x q))
        (fun hnil => by rw [hnil] at hD; cases hD)
    have hp0ms : p0 ∈ ms := (List.mem_filter.mp hp0).1
    have hp0prop := (List.mem_filter.mp hp0).2
    have hp0x : p0 ≠ x := by
      have := hp0prop
      simp only [Bool.and_eq_true, decide_eq_true_eq] at this
      exact this.1
    have hp0sub : isSubB x p0 = true := by
      have := hp0prop
      simp only [Bool.and_eq_true, decide_eq_true_eq] at this
      exact this.2
    -- p0 has no dominator in ms
    have hp0free : ∀ q ∈ ms, q ≠ p0 → isSubB p0 q = false := by
      intro q hq hqp0
      cases hsubq : isSubB p0 q
      · rfl
      · exfalso
        have hsx : stripDots x = x := hstrip x hx
        have hsp0 : stripDots p0 = p0 := hstrip p0 hp0ms
        have hsq : stripDots q = q := hstrip q hq
        rcases (isSubB_iff_strip hsp0 hsq).mp hsubq with he | hsfx
        · exact hqp0 he.symm
        · rcases (isSubB_iff_strip hsx hsp0).mp hp0sub with he2 | hsfx2
          · exact hp0x he2.symm
          · have hxq : ('.' :: q) <:+ x := suffix_dot_trans hsfx2 hsfx
            have hqx : q ≠ x := by
              rintro rfl
              have l1 : labb q < labb p0 := labb_lt_of_suffix hsp0 hsq hsfx
              have l2 : labb p0 < labb q := labb_lt_of_suffix hsx hsp0 hsfx2
              omega
            have hqD : q ∈ ms.filter (fun r => decide (r ≠ x) && isSubB x r) := by
              rw [List.mem_filter]
              refine ⟨hq, ?_⟩
              have hxqsub : isSubB x q = true := by
                rw [isSubB_iff_strip (hstrip x hx) hsq]
                exact Or.inr hxq
              simp [hqx, hxqsub]
            have hlt : labb q < labb p0 := labb_lt_of_suffix hsp0 hsq hsfx
            have := hmin q hqD
            omega
    have hp0mem : p0 ∈ keepGo [] ms :=
      keepGo_mem_of_undominated hp0ms (by intro p hp; cases hp) hp0free
    have hanti := @keepGo_antichain ms [] hsort
      (fun e he => by rcases he with he | he
                      · cases he
                      · exact hstrip e he)
      (fun p hp => by cases hp) (fun p hp q hq => by cases hp)
    have hcontra := hanti x hmem p0 hp0mem (fun he => hp0x he.symm)
    rw [hp0sub] at hcontra
    cases hcontra
  · intro ⟨hx, hfree⟩
    exact keepGo_mem_of_undominated hx (by intro p hp; cases hp) hfree

/-! ## Canonical set operations, specialised -/

theorem mem_dinsert (x a : List Char) (l : List (List Char)) :
    a ∈ dinsert x l ↔ a = x ∨ a ∈ l := mem_oinsert x a l

theorem mem_pinsert (x a : List Char × List Char) (l : List (List Char × List Char)) :
    a ∈ pinsert x l ↔ a = x ∨ a ∈ l := mem_oinsert x a l

theorem dinsert_osorted (x : List Char) {l : List (List Char)} (hs : OSorted llt l) :
    OSorted llt (dinsert x l) :=
  osorted_oinsert llt_irrefl llt_trans llt_connex x hs

theorem pinsert_osorted (x : List Char × List Char) {l : List (List Char × List Char)}
    (hs : OSorted pltb l) : OSorted pltb (pinsert x l) :=
  osorted_oinsert pltb_irrefl pltb_trans pltb_connex x hs

theorem dinsert_comm (x y : List Char) {l : List (List Char)} (hs : OSorted llt l) :
    dinsert x (dinsert y l) = dinsert y (dinsert x l) :=
  oinsert_comm llt_irrefl llt_trans llt_connex x y hs

theorem pinsert_comm (x y : List Char × List Char) {l : List (List Char × List Char)}
    (hs : OSorted pltb l) : pinsert x (pinsert y l) = pinsert y (pinsert x l) :=
  oinsert_comm pltb_irrefl pltb_trans pltb_connex x y hs

theorem mem_foldl_dinsert {β : Type} (f : β → List Char) (l : List β)
    (init : List (List Char)) (a : List Char) :
    a ∈ l.foldl (fun acc d => dinsert (f d) acc) init ↔
      (∃ d ∈ l, f d = a) ∨ a ∈ init :=
  mem_foldl_oinsert f l init a

theorem osorted_foldl_dinsert {β : Type} (f : β → List Char) (l : List β)
    {init : List (List Char)} (hs : OSorted llt init) :
    OSorted llt (l.foldl (fun acc d => dinsert (f d) acc) init) :=
  osorted_foldl_oinsert llt_irrefl llt_trans llt_connex f l hs

theorem mem_foldl_dinsert_id (l init : List (List Char)) (x : List Char) :
    x ∈ l.foldl (fun acc d => dinsert d acc) init ↔ x ∈ l ∨ x ∈ init := by
  have h := mem_foldl_dinsert (fun d => d) l init x
  simpa using h

theorem mem_foldl_append {β : Type} (g : β → List (List Char)) (l : List β)
    (init : List (List Char)) (x : List Char) :
    x ∈ l.foldl (fun acc b => acc ++ g b) init ↔ x ∈ init ∨ ∃ b ∈ l, x ∈ g b := by
  induction l generalizing init with
  | nil => simp
  | cons b bs ih =>
    simp only [List.foldl_cons, ih, List.mem_append]
    constructor
    · rintro ((h | h) | ⟨c, hc, hx⟩)
      · exact Or.inl h
      · exact Or.inr ⟨b, List.mem_cons_self b bs, h⟩
      · exact Or.inr ⟨c, List.mem_cons_of_mem b hc, hx⟩
    · rintro (h | ⟨c, hc, hx⟩)
      · exact Or.inl (Or.inl h)
      · rcases List.mem_cons.mp hc with rfl | hc
        · exact Or.inl (Or.inr hx)
        · exact Or.inr ⟨c, hc, hx⟩

theorem mem_regList {bl : List (List Char)} {rd : List Char} :
    rd ∈ regList bl ↔ ∃ d ∈ bl, regd d = rd := by
  have h := mem_foldl_dinsert regd bl [] rd
  unfold regList
  simpa using h

/-! ## Collapse characterisation -/

theorem collapseB_subset {bl : List (List Char)} {x : List Char}
    (h : x ∈ collapseB bl) : x ∈ bl := by
  simp only [collapseB] at h
  rw [mem_foldl_dinsert_id] at h
  rcases h with h | h
  · rw [mem_foldl_append] at h
    rcases h with h | ⟨rd, _, h⟩
    · cases h
    · rcases keepGo_mem_src h with h | h
      · cases h
      · exact (List.mem_filter.mp ((mem_ksort x _).mp h)).1
  · cases h

theorem collapseB_osorted (bl : List (List Char)) : OSorted llt (collapseB bl) := by
  simp only [collapseB]
  exact osorted_foldl_dinsert (fun d => d) _ (by simp [OSorted])

theorem mem_collapseB {bl : List (List Char)} (hs : OSorted llt bl)
    (hstrip : ∀ d ∈ bl, stripDots d = d) (x : List Char) :
    x ∈ collapseB bl ↔
      (x ∈ bl ∧ ∀ p ∈ bl, regd p = regd x → p ≠ x → isSubB x p = false) := by
  have hnd : bl.Nodup := osorted_nodup llt_irrefl hs
  simp only [collapseB]
  rw [mem_foldl_dinsert_id, mem_foldl_append]
  simp only [List.not_mem_nil, or_false, false_or]
  have hchar : ∀ rd : List Char,
      x ∈ keepGo [] (ksort (groupMembers bl rd)) ↔
        ((x ∈ bl ∧ regd x = rd) ∧
          ∀ p ∈ bl, regd p = rd → p ≠ x → isSubB x p = false) := by
    intro rd
    have hgnd : (groupMembers bl rd).Nodup := hnd.filter _
    have hsorted := ksort_pairwise hgnd
    have hstrip2 : ∀ d ∈ ksort (groupMembers bl rd), stripDots d = d := by
      intro d hd
      exact hstrip d (List.mem_filter.mp ((mem_ksort d _).mp hd)).1
    rw [keepGo_mem_iff hsorted hstrip2]
    have hmem : ∀ d : List Char,
        d ∈ ksort (groupMembers bl rd) ↔ (d ∈ bl ∧ regd d = rd) := by
      intro d
      rw [mem_ksort]
      unfold groupMembers
      rw [List.mem_filter]
      simp
    rw [hmem]
    constructor
    · rintro ⟨⟨hxbl, hxrd⟩, hfree⟩
      refine ⟨⟨hxbl, hxrd⟩, ?_⟩
      intro p hp hprd hpx
      exact hfree p ((hmem p).mpr ⟨hp, hprd⟩) hpx
    · rintro ⟨⟨hxbl, hxrd⟩, hfree⟩
      refine ⟨⟨hxbl, hxrd⟩, ?_⟩
      intro p hp hpx
      obtain ⟨hpbl, hprd⟩ := (hmem p).mp hp
      exact hfree p hpbl hprd hpx
  constructor
  · rintro ⟨rd, _, hk⟩
    obtain ⟨⟨hxbl, hxrd⟩, hfree⟩ := (hchar rd).mp hk
    subst hxrd
    exact ⟨hxbl, hfree⟩
  · rintro ⟨hxbl, hfree⟩
    refine ⟨regd x, mem_regList.mpr ⟨x, hxbl, rfl⟩, ?_⟩
    exact (hchar (regd x)).mpr ⟨⟨hxbl, rfl⟩, hfree⟩

/-! ## Classification facts -/

theorem take_two_at {s : List Char} (h2 : s.take 2 = ['@', '@']) :
    ∃ t, s = '@' :: '@' :: t := by
  cases s with
  | nil => simp at h2
  | cons a s1 =>
    cases s1 with
    | nil => simp at h2
    | cons b t =>
      simp only [List.take_succ_cons, List.take_zero, List.cons.injEq] at h2
      obtain ⟨ha, hb, -⟩ := h2
      exact ⟨t, by rw [ha, hb]⟩

theorem domCoreB_nil : domCoreB [] = false := by decide

theorem domCoreB_head_at {cs : List Char} : domCoreB ('@' :: cs) = false := by
  unfold domCoreB
  have hall : ('@' :: cs).all isHostC = false := by
    rw [List.all_cons]
    have h : isHostC '@' = false := by decide
    rw [h]
    rfl
  rw [hall]
  simp

/-- `R_DOMAIN` never matches a line starting with `@@`: the regex has no
alternative for `@`, which is outside every character class it uses.
Consequently the `s.startswith('@@')` branch of the classifier is dead
code. -/
theorem domainM_at_none {s : List Char} (h2 : s.take 2 = ['@', '@']) : domainM s = none := by
  obtain ⟨t, rfl⟩ := take_two_at h2
  unfold domainM
  have ht : List.dropWhile isWsC ('@' :: '@' :: t) = '@' :: '@' :: t := by
    rw [List.dropWhile_cons, if_neg (by decide)]
  simp only [ht]
  rw [if_neg (by simp)]
  split
  · rfl
  · next r hr =>
    split at hr
    · cases hr
    · have hrr : r = '@' :: '@' :: t := by
        injection hr with h3
        exact h3.symm
      subst hrr
      have hpre1 : dropTrail isWsC ('@' :: '@' :: t) <+: ('@' :: '@' :: t) :=
        dropTrail_prefix_self isWsC _
      set r1 := dropTrail isWsC ('@' :: '@' :: t) with hr1
      have hcore : ∀ r2 : List Char, r2 <+: ('@' :: '@' :: t) → domCoreB r2 = false := by
        intro r2 hp
        cases r2 with
        | nil => exact domCoreB_nil
        | cons c cs =>
          obtain ⟨u, hu⟩ := hp
          have hc : c = '@' := by
            have h4 := congrArg List.head? hu
            simpa using h4
          subst hc
          exact domCoreB_head_at
      split
      · next h5 =>
        exfalso
        have hfalse : domCoreB (match r1.getLast? with
            | some '^' => r1.dropLast
            | _ => r1) = false := by
          split
          · exact hcore _ ((List.dropLast_prefix r1).trans hpre1)
          · exact hcore _ hpre1
        exact absurd (h5.symm.trans hfalse) (by decide)
      · rfl

theorem classifyTail_good (s : List Char) :
    ∀ {d v}, (classifyTail true s = .rewD d v ∨ classifyTail true s = .typD d v) →
      (NormalDom d ∧ isPSLike d = false) := by
  intro d v h
  have hgen : ∀ (m w : List Char),
      ((if isPSLike (idna_norm m) then RuleRecord.ignored
        else RuleRecord.rewD (idna_norm m) (stripWs w)) = RuleRecord.rewD d v ∨
       (if isPSLike (idna_norm m) then RuleRecord.ignored
        else RuleRecord.typD (idna_norm m) (stripWs w)) = RuleRecord.typD d v) →
      (NormalDom d ∧ isPSLike d = false) := by
    intro m w hmw
    rcases hmw with hmw | hmw <;>
    · split at hmw
      · cases hmw
      · next hps =>
        injection hmw with h1 h2
        subst h1
        exact ⟨⟨idna_norm_lower _, idna_norm_stripDots _⟩, by simpa using hps⟩
  rcases h with h | h
  · cases hmt : modTail rewKey s with
    | none =>
      cases hmt2 : modTail typKey s with
      | none => simp [classifyTail, hmt, hmt2] at h
      | some p =>
        obtain ⟨m, w⟩ := p
        simp only [classifyTail, hmt, hmt2, if_true] at h
        split at h <;> cases h
    | some p =>
      obtain ⟨m, w⟩ := p
      simp only [classifyTail, hmt, if_true] at h
      exact hgen m w (Or.inl h)
  · cases hmt : modTail rewKey s with
    | none =>
      cases hmt2 : modTail typKey s with
      | none => simp [classifyTail, hmt, hmt2] at h
      | some p =>
        obtain ⟨m, w⟩ := p
        simp only [classifyTail, hmt, hmt2, if_true] at h
        exact hgen m w (Or.inr h)
    | some p =>
      obtain ⟨m, w⟩ := p
      simp only [classifyTail, hmt, if_true] at h
      split at h <;> cases h

theorem classifyTail_shape (k : Bool) (s : List Char) :
    ∀ {d}, classifyTail k s ≠ .blockD d ∧ classifyTail k s ≠ .allowD d := by
  intro d
  constructor <;>
  · intro h
    cases hmt : modTail rewKey s with
    | some p =>
      obtain ⟨m, w⟩ := p
      simp only [classifyTail, hmt] at h
      by_cases hps : isPSLike (if k then idna_norm m else lowerL m) = true
      · rw [if_pos hps] at h
        cases h
      · rw [if_neg hps] at h
        cases h
    | none =>
      cases hmt2 : modTail typKey s with
      | some p =>
        obtain ⟨m, w⟩ := p
        simp only [classifyTail, hmt, hmt2] at h
        by_cases hps : isPSLike (if k then idna_norm m else lowerL m) = true
        · rw [if_pos hps] at h
          cases h
        · rw [if_neg hps] at h
          cases h
      | none => simp [classifyTail, hmt, hmt2] at h

theorem classify_good (raw : List Char) :
    ∀ {d v}, (classifyLine true raw = .blockD d ∨ classifyLine true raw = .allowD d ∨
        classifyLine true raw = .rewD d v ∨ classifyLine true raw = .typD d v) →
      (NormalDom d ∧ isPSLike d = false) := by
  intro d v h
  simp only [classifyLine] at h
  generalize hsg : (stripWs raw).filter (fun c => !(decide (c = '﻿'))) = s at h
  by_cases hb : (blankB s || commentB s || cosmeticB s) = true
  · rw [if_pos hb] at h
    rcases h with h | h | h | h <;> cases h
  · rw [if_neg hb] at h
    cases hhm : hostsM s with
    | some hh =>
      simp only [hhm, if_true] at h
      have hcase : ∀ (r : RuleRecord),
          (if isPSLike (idna_norm hh) then RuleRecord.ignored
           else RuleRecord.blockD (idna_norm hh)) = r →
          (r = .blockD d ∨ r = .allowD d ∨ r = .rewD d v ∨ r = .typD d v) →
          (NormalDom d ∧ isPSLike d = false) := by
        intro r hr hcases
        split at hr
        · subst hr
          rcases hcases with h | h | h | h <;> cases h
        · next hps =>
          subst hr
          rcases hcases with h | h | h | h
          · injection h with h1
            subst h1
            exact ⟨⟨idna_norm_lower _, idna_norm_stripDots _⟩, by simpa using hps⟩
          · cases h
          · cases h
          · cases h
      exact hcase _ rfl h
    | none =>
      simp only [hhm, if_true] at h
      cases hdm : domainM s with
      | none =>
        simp only [hdm, if_true] at h
        rcases h with h | h | h | h
        · exact absurd h (classifyTail_shape true s).1
        · exact absurd h (classifyTail_shape true s).2
        · exact classifyTail_good s (Or.inl h)
        · exact classifyTail_good s (Or.inr h)
      | some g =>
        simp only [hdm, if_true] at h
        by_cases hgd : ('$' ∉ s ∧ ¬(s.head? = some '/' ∧ s.getLast? = some '/'))
        · rw [if_pos hgd] at h
          by_cases hps : isPSLike (idna_norm g) = true
          · rw [if_pos hps] at h
            rcases h with h | h | h | h <;> cases h
          · rw [if_neg hps] at h
            by_cases hat : s.take 2 = ['@', '@']
            · rw [if_pos hat] at h
              rcases h with h | h | h | h
              · cases h
              · injection h with h1
                subst h1
                exact ⟨⟨idna_norm_lower _, idna_norm_stripDots _⟩, by simpa using hps⟩
              · cases h
              · cases h
            · rw [if_neg hat] at h
              rcases h with h | h | h | h
              · injection h with h1
                subst h1
                exact ⟨⟨idna_norm_lower _, idna_norm_stripDots _⟩, by simpa using hps⟩
              · cases h
              · cases h
              · cases h
        · rw [if_neg hgd] at h
          rcases h with h | h | h | h
          · exact absurd h (classifyTail_shape true s).1
          · exact absurd h (classifyTail_shape true s).2
          · exact classifyTail_good s (Or.inl h)
          · exact classifyTail_good s (Or.inr h)

theorem classify_no_allow (raw : List Char) :
    ∀ {d}, classifyLine true raw ≠ .allowD d := by
  intro d h
  simp only [classifyLine] at h
  generalize hsg : (stripWs raw).filter (fun c => !(decide (c = '﻿'))) = s at h
  by_cases hb : (blankB s || commentB s || cosmeticB s) = true
  · rw [if_pos hb] at h
    cases h
  · rw [if_neg hb] at h
    cases hhm : hostsM s with
    | some hh =>
      simp only [hhm, if_true] at h
      by_cases hps : isPSLike (idna_norm hh) = true
      · rw [if_pos hps] at h
        cases h
      · rw [if_neg hps] at h
        cases h
    | none =>
      simp only [hhm, if_true] at h
      cases hdm : domainM s with
      | none =>
        simp only [hdm, if_true] at h
        exact absurd h (classifyTail_shape true s).2
      | some g =>
        simp only [hdm, if_true] at h
        by_cases hgd : ('$' ∉ s ∧ ¬(s.head? = some '/' ∧ s.getLast? = some '/'))
        · rw [if_pos hgd] at h
          by_cases hps : isPSLike (idna_norm g) = true
          · rw [if_pos hps] at h
            cases h
          · rw [if_neg hps] at h
            by_cases hat : s.take 2 = ['@', '@']
            · rw [domainM_at_none hat] at hdm
              cases hdm
            · rw [if_neg hat] at h
              cases h
        · rw [if_neg hgd] at h
          exact absurd h (classifyTail_shape true s).2

/-! ## Aggregate and resolver invariants -/

theorem stepAgg_good {st : Agg} (hg : GoodSt st) (raw : List Char) :
    GoodSt (stepAgg st raw) := by
  obtain ⟨s1, s2, s3, s4, g1, g2, g3, g4⟩ := hg
  unfold stepAgg
  cases hc : classifyLine true raw with
  | ignored => exact ⟨s1, s2, s3, s4, g1, g2, g3, g4⟩
  | blockD d =>
    have hd := classify_good raw (v := []) (Or.inl hc)
    refine ⟨s1, dinsert_osorted d s2, s3, s4, g1, ?_, g3, g4⟩
    intro e he
    rcases (mem_dinsert d e st.block).mp he with rfl | he
    · exact hd
    · exact g2 e he
  | allowD d => exact absurd hc (classify_no_allow raw)
  | rewD d w =>
    have hd := classify_good raw (Or.inr (Or.inr (Or.inl hc)))
    refine ⟨s1, dinsert_osorted d s2, pinsert_osorted (d, w) s3, s4, g1, ?_, ?_, g4⟩
    · intro e he
      rcases (mem_dinsert d e st.block).mp he with rfl | he
      · exact hd
      · exact g2 e he
    · intro p hp
      rcases (mem_pinsert (d, w) p st.rew).mp hp with rfl | hp
      · exact hd
      · exact g3 p hp
  | typD d w =>
    have hd := classify_good raw (Or.inr (Or.inr (Or.inr hc)))
    refine ⟨s1, dinsert_osorted d s2, s3, pinsert_osorted (d, w) s4, g1, ?_, g3, ?_⟩
    · intro e he
      rcases (mem_dinsert d e st.block).mp he with rfl | he
      · exact hd
      · exact g2 e he
    · intro p hp
      rcases (mem_pinsert (d, w) p st.typ).mp hp with rfl | hp
      · exact hd
      · exact g4 p hp

theorem foldl_stepAgg_good (ls : List (List Char)) :
    ∀ (st : Agg), GoodSt st → GoodSt (ls.foldl stepAgg st) := by
  induction ls with
  | nil => intro st h; exact h
  | cons l ls ih => intro st h; exact ih _ (stepAgg_good h l)

theorem aggregate_good (lines : List (List Char)) : GoodSt (aggregate lines) := by
  unfold aggregate
  refine foldl_stepAgg_good lines _ ?_
  refine ⟨List.Pairwise.nil, List.Pairwise.nil, List.Pairwise.nil, List.Pairwise.nil,
    ?_, ?_, ?_, ?_⟩ <;>
  · intro e he
    cases he

/-- The whitelist set built by the aggregation loop is empty on every
input: the classifier can never produce an `AllowDomain` record because
`R_DOMAIN` cannot match a line starting with `@@`. -/
theorem aggregate_allow_nil (lines : List (List Char)) : (aggregate lines).allow = [] := by
  unfold aggregate
  have hstep : ∀ (ls : List (List Char)) (st : Agg), st.allow = [] →
      (ls.foldl stepAgg st).allow = [] := by
    intro ls
    induction ls with
    | nil => intro st h; exact h
    | cons l ls ih =>
      intro st h
      refine ih _ ?_
      unfold stepAgg
      cases hc : classifyLine true l with
      | ignored => exact h
      | blockD d => exact h
      | allowD d => exact absurd hc (classify_no_allow l)
      | rewD d w => exact h
      | typD d w => exact h
  exact hstep lines _ rfl

theorem allowedB_nil (d : List Char) : allowedB [] d = false := rfl

theorem mem_prune_block {st : Agg} (d : List Char) :
    d ∈ (pruneAgg st).block ↔ d ∈ st.block ∧ allowedB st.allow d = false := by
  unfold pruneAgg
  split
  · next hemp =>
    have hnil : st.allow = [] := List.isEmpty_iff.mp hemp
    rw [hnil]
    simp [allowedB_nil]
  · rw [List.mem_filter]
    simp [Bool.not_eq_true']

theorem mem_prune_rew {st : Agg} (p : List Char × List Char) :
    p ∈ (pruneAgg st).rew ↔ p ∈ st.rew ∧ allowedB st.allow p.1 = false := by
  unfold pruneAgg
  split
  · next hemp =>
    have hnil : st.allow = [] := List.isEmpty_iff.mp hemp
    rw [hnil]
    simp [allowedB_nil]
  · rw [List.mem_filter]
    simp [Bool.not_eq_true']

theorem mem_prune_typ {st : Agg} (p : List Char × List Char) :
    p ∈ (pruneAgg st).typ ↔ p ∈ st.typ ∧ allowedB st.allow p.1 = false := by
  unfold pruneAgg
  split
  · next hemp =>
    have hnil : st.allow = [] := List.isEmpty_iff.mp hemp
    rw [hnil]
    simp [allowedB_nil]
  · rw [List.mem_filter]
    simp [Bool.not_eq_true']

theorem resolveAgg_rew (enable : Bool) (st : Agg) :
    (resolveAgg enable st).rew = (pruneAgg st).rew := by
  simp only [resolveAgg]
  split <;> rfl

theorem resolveAgg_typ (enable : Bool) (st : Agg) :
    (resolveAgg enable st).typ = (pruneAgg st).typ := by
  simp only [resolveAgg]
  split <;> rfl

theorem resolveAgg_allow (enable : Bool) (st : Agg) :
    (resolveAgg enable st).allow = (pruneAgg st).allow := by
  simp only [resolveAgg]
  split <;> rfl

theorem resolveAgg_block_sub {enable : Bool} {st : Agg} {d : List Char}
    (h : d ∈ (resolveAgg enable st).block) : d ∈ (pruneAgg st).block := by
  simp only [resolveAgg] at h
  split at h
  · exact collapseB_subset h
  · exact h

theorem pruneAgg_good {st : Agg} (h : GoodSt st) : GoodSt (pruneAgg st) := by
  obtain ⟨s1, s2, s3, s4, g1, g2, g3, g4⟩ := h
  unfold pruneAgg
  split
  · exact ⟨s1, s2, s3, s4, g1, g2, g3, g4⟩
  · refine ⟨s1, s2.filter _, s3.filter _, s4.filter _, g1, ?_, ?_, ?_⟩
    · intro e he
      exact g2 e (List.mem_filter.mp he).1
    · intro p hp
      exact g3 p (List.mem_filter.mp hp).1
    · intro p hp
      exact g4 p (List.mem_filter.mp hp).1

theorem resolveAgg_good {st : Agg} (h : GoodSt st) : GoodSt (resolveAgg true st) := by
  have hp := pruneAgg_good h
  obtain ⟨s1, s2, s3, s4, g1, g2, g3, g4⟩ := hp
  simp only [resolveAgg]
  split
  · refine ⟨s1, collapseB_osorted _, s3, s4, g1, ?_, g3, g4⟩
    intro e he
    exact g2 e (collapseB_subset he)
  · exact ⟨s1, s2, s3, s4, g1, g2, g3, g4⟩

theorem mem_domainsOut {st : Agg} (d : List Char) :
    d ∈ domainsOut st ↔
      d ∈ st.block ∨ (∃ v, (d, v) ∈ st.rew) ∨ (∃ v, (d, v) ∈ st.typ) := by
  unfold domainsOut
  rw [mem_foldl_dinsert_id]
  simp only [List.mem_append, List.mem_map]
  constructor
  · rintro ((⟨p, hp, hpd⟩ | ⟨p, hp, hpd⟩) | h)
    · refine Or.inr (Or.inl ⟨p.2, ?_⟩)
      have he : (d, p.2) = p := by
        rw [← hpd]
      rw [he]
      exact hp
    · refine Or.inr (Or.inr ⟨p.2, ?_⟩)
      have he : (d, p.2) = p := by
        rw [← hpd]
      rw [he]
      exact hp
    · exact Or.inl h
  · rintro (h | ⟨v, hv⟩ | ⟨v, hv⟩)
    · exact Or.inr h
    · exact Or.inl (Or.inl ⟨(d, v), hv, rfl⟩)
    · exact Or.inl (Or.inr ⟨(d, v), hv, rfl⟩)

theorem domainsOut_osorted {st : Agg} (hs : OSorted llt st.block) :
    OSorted llt (domainsOut st) := by
  unfold domainsOut
  exact osorted_foldl_dinsert (fun d => d) _ hs

theorem stepAgg_comm {st : Agg} (hg : GoodSt st) (r1 r2 : List Char) :
    stepAgg (stepAgg st r1) r2 = stepAgg (stepAgg st r2) r1 := by
  obtain ⟨s1, s2, s3, s4, g1, g2, g3, g4⟩ := hg
  cases hc1 : classifyLine true r1 with
  | allowD d => exact absurd hc1 (classify_no_allow r1)
  | ignored =>
    cases hc2 : classifyLine true r2 <;> simp only [stepAgg, hc1, hc2]
  | blockD d1 =>
    cases hc2 : classifyLine true r2 with
    | allowD d => exact absurd hc2 (classify_no_allow r2)
    | ignored => simp only [stepAgg, hc1, hc2]
    | blockD d2 =>
      simp only [stepAgg, hc1, hc2]
      rw [dinsert_comm d2 d1 s2]
    | rewD d2 w2 =>
      simp only [stepAgg, hc1, hc2]
      rw [dinsert_comm d2 d1 s2]
    | typD d2 w2 =>
      simp only [stepAgg, hc1, hc2]
      rw [dinsert_comm d2 d1 s2]
  | rewD d1 w1 =>
    cases hc2 : classifyLine true r2 with
    | allowD d => exact absurd hc2 (classify_no_allow r2)
    | ignored => simp only [stepAgg, hc1, hc2]
    | blockD d2 =>
      simp only [stepAgg, hc1, hc2]
      rw [dinsert_comm d2 d1 s2]
    | rewD d2 w2 =>
      simp only [stepAgg, hc1, hc2]
      rw [dinsert_comm d2 d1 s2, pinsert_comm (d2, w2) (d1, w1) s3]
    | typD d2 w2 =>
      simp only [stepAgg, hc1, hc2]
      rw [dinsert_comm d2 d1 s2]
  | typD d1 w1 =>
    cases hc2 : classifyLine true r2 with
    | allowD d => exact absurd hc2 (classify_no_allow r2)
    | ignored => simp only [stepAgg, hc1, hc2]
    | blockD d2 =>
      simp only [stepAgg, hc1, hc2]
      rw [dinsert_comm d2 d1 s2]
    | rewD d2 w2 =>
      simp only [stepAgg, hc1, hc2]
      rw [dinsert_comm d2 d1 s2]
    | typD d2 w2 =>
      simp only [stepAgg, hc1, hc2]
      rw [dinsert_comm d2 d1 s2, pinsert_comm (d2, w2) (d1, w1) s4]

theorem foldl_stepAgg_perm {l1 l2 : List (List Char)} (hp : l1.Perm l2) :
    ∀ st : Agg, GoodSt st → l1.foldl stepAgg st = l2.foldl stepAgg st := by
  induction hp with
  | nil => intro st _; rfl
  | cons x _ ih =>
    intro st hg
    simp only [List.foldl_cons]
    exact ih _ (stepAgg_good hg x)
  | swap x y l =>
    intro st hg
    simp only [List.foldl_cons]
    rw [stepAgg_comm hg]
  | trans _ _ ih1 ih2 =>
    intro st hg
    exact (ih1 st hg).trans (ih2 st hg)

theorem aggregate_perm {l1 l2 : List (List Char)} (hp : l1.Perm l2) :
    aggregate l1 = aggregate l2 := by
  unfold aggregate
  refine foldl_stepAgg_perm hp _ ?_
  refine ⟨List.Pairwise.nil, List.Pairwise.nil, List.Pairwise.nil, List.Pairwise.nil,
    ?_, ?_, ?_, ?_⟩ <;>
  · intro e he
    cases he

/-! ## Claim theorems -/

set_option maxRecDepth 10000

/-- C1: the claim says a line of the form `@@||example.com^` is classified
as AllowDomain.  The code discards it: `R_DOMAIN` cannot match a line
starting with `@@` (no character class of the regex contains `@`), so the
`s.startswith('@@')` branch is dead and the whitelist set stays empty on
every input, while plain `||domain^` lines are classified BlockDomain as
claimed.  This theorem evaluates the classifier at the failing input and
proves the allow set is always empty. -/
theorem C1_allow_line_discarded :
    classifyLine true ("@@||example.com^".data) = RuleRecord.ignored ∧
    (∀ lines : List (List Char), (aggregate lines).allow = []) ∧
    classifyLine true ("||example.com^".data) = RuleRecord.blockD ("example.com".data) :=
  ⟨by decide, aggregate_allow_nil, by decide⟩

/-- C2: the claim says the scenario
`["||ads.example.com^", "0.0.0.0 tracker.example.com", "@@||example.com^"]`
yields empty block/domain output.  Because the `@@` whitelist line is
discarded (see C1), the code instead outputs both blocked subdomains.
This theorem evaluates the pipeline at the failing input. -/
theorem C2_scenario_not_covered :
    pipeDomains ["||ads.example.com^".data, "0.0.0.0 tracker.example.com".data,
        "@@||example.com^".data] =
      ["ads.example.com".data, "tracker.example.com".data] ∧
    pipeRules ["||ads.example.com^".data, "0.0.0.0 tracker.example.com".data,
        "@@||example.com^".data] =
      ["||ads.example.com^".data, "||tracker.example.com^".data] := by
  decide

/-- C3: whitelist dominance of the Conflict Resolver.  For every aggregate
state, every domain `d` and allow-domain `a` in the state (domains carry
no surrounding dots, per the Domain invariant), if `d = a` or `d` ends in
`"." ++ a`, then after resolution `d` is in neither the block set nor the
dnsrewrite map nor the dnstype map, and not in the output domain list. -/
theorem C3_whitelist_dominance (st : Agg) (d a : List Char)
    (ha : a ∈ st.allow) (hd : stripDots d = d) (hsa : stripDots a = a)
    (hcov : d = a ∨ ('.' :: a) <:+ d) :
    d ∉ (resolveAgg true st).block ∧
    (∀ v, (d, v) ∉ (resolveAgg true st).rew) ∧
    (∀ v, (d, v) ∉ (resolveAgg true st).typ) ∧
    d ∉ domainsOut (resolveAgg true st) := by
  have hsub : isSubB d a = true := (isSubB_iff_strip hd hsa).mpr hcov
  have hall : allowedB st.allow d = true := by
    unfold allowedB
    rw [List.any_eq_true]
    exact ⟨a, ha, hsub⟩
  have hblock : d ∉ (resolveAgg true st).block := by
    intro hmem
    have h2 := (mem_prune_block d).mp (resolveAgg_block_sub hmem)
    rw [hall] at h2
    cases h2.2
  have hrew : ∀ v, (d, v) ∉ (resolveAgg true st).rew := by
    intro v hmem
    rw [resolveAgg_rew] at hmem
    have h2 := (mem_prune_rew (d, v)).mp hmem
    simp only [hall] at h2
    cases h2.2
  have htyp : ∀ v, (d, v) ∉ (resolveAgg true st).typ := by
    intro v hmem
    rw [resolveAgg_typ] at hmem
    have h2 := (mem_prune_typ (d, v)).mp hmem
    simp only [hall] at h2
    cases h2.2
  refine ⟨hblock, hrew, htyp, ?_⟩
  intro hmem
  rcases (mem_domainsOut d).mp hmem with h | ⟨v, hv⟩ | ⟨v, hv⟩
  · exact hblock h
  · exact hrew v hv
  · exact htyp v hv

/-- C3 witness: whitelist dominance applied to a concrete aggregate state
in which `example.com` is allowed and `ads.example.com` blocked. -/
theorem C3_whitelist_dominance_witness :
    ("ads.example.com".data ∉
      (resolveAgg true ⟨["example.com".data], ["ads.example.com".data], [], []⟩).block) ∧
    ("ads.example.com".data ∉
      domainsOut (resolveAgg true ⟨["example.com".data], ["ads.example.com".data], [], []⟩)) := by
  have h := C3_whitelist_dominance ⟨["example.com".data], ["ads.example.com".data], [], []⟩
    ("ads.example.com".data) ("example.com".data)
    (by decide) (by decide) (by decide)
    (Or.inr ⟨"ads".data, rfl⟩)
  exact ⟨h.1, h.2.2.2⟩

/-- C4 counterexample: on input
`["||example.com^", "||sub.example.com^$dnsrewrite=1.2.3.4"]` the kept
block domain `example.com` is a strict ancestor of `sub.example.com` in
the same registrable group, yet the claim's conclusion fails: the
dnsrewrite entry of `sub.example.com` remains in the rewrite map, in the
emitted rule lines, and in the domain list. -/
theorem C4_counterexample :
    (pipeState ["||example.com^".data, "||sub.example.com^$dnsrewrite=1.2.3.4".data]).block =
        ["example.com".data] ∧
    regd ("sub.example.com".data) = regd ("example.com".data) ∧
    isSubB ("sub.example.com".data) ("example.com".data) = true ∧
    ("sub.example.com".data, "1.2.3.4".data) ∈
      (pipeState ["||example.com^".data, "||sub.example.com^$dnsrewrite=1.2.3.4".data]).rew ∧
    "sub.example.com".data ∈
      pipeDomains ["||example.com^".data, "||sub.example.com^$dnsrewrite=1.2.3.4".data] ∧
    ruleOfRew ("sub.example.com".data, "1.2.3.4".data) ∈
      pipeRules ["||example.com^".data, "||sub.example.com^$dnsrewrite=1.2.3.4".data] := by
  decide

/-- C4 (amended): parent collapse only shrinks the block set.  Rewrite and
type entries survive resolution exactly when the whitelist does not cover
their domain — collapse never removes them — and every surviving entry
still appears in the output domain list (hence in the rule lines). -/
theorem C4_collapse_spares_maps (st : Agg) :
    (∀ p, p ∈ (resolveAgg true st).rew ↔ p ∈ st.rew ∧ allowedB st.allow p.1 = false) ∧
    (∀ p, p ∈ (resolveAgg true st).typ ↔ p ∈ st.typ ∧ allowedB st.allow p.1 = false) ∧
    (∀ p, p ∈ (resolveAgg true st).rew → p.1 ∈ domainsOut (resolveAgg true st)) ∧
    (∀ p, p ∈ (resolveAgg true st).typ → p.1 ∈ domainsOut (resolveAgg true st)) := by
  refine ⟨?_, ?_, ?_, ?_⟩
  · intro p
    rw [resolveAgg_rew]
    exact mem_prune_rew p
  · intro p
    rw [resolveAgg_typ]
    exact mem_prune_typ p
  · intro p hp
    rw [mem_domainsOut]
    exact Or.inr (Or.inl ⟨p.2, hp⟩)
  · intro p hp
    rw [mem_domainsOut]
    exact Or.inr (Or.inr ⟨p.2, hp⟩)

/-- C4 witness: the amended claim applied to a concrete state whose
rewrite domain is collapsed out of the block set but stays in the output. -/
theorem C4_collapse_spares_maps_witness :
    ("sub.example.com".data ∈ domainsOut (resolveAgg true
      ⟨[], ["example.com".data, "sub.example.com".data],
        [("sub.example.com".data, "1.2.3.4".data)], []⟩)) :=
  (C4_collapse_spares_maps _).2.2.1 ("sub.example.com".data, "1.2.3.4".data) (by decide)

/-- C5: parent-domain collapse.  For every canonically sorted block set of
normalized domains, a domain survives collapse iff no other member of the
same registrable group subsumes it (`_is_subdomain_of`); in particular,
domains of different registrable groups are never collapsed into one
another.  The concrete scenario `["||a.b.example.com^", "||example.com^"]`
yields the output domain list `["example.com"]`. -/
theorem C5_parent_collapse :
    (∀ (bl : List (List Char)), OSorted llt bl → (∀ d ∈ bl, stripDots d = d) →
      ∀ x, x ∈ collapseB bl ↔
        (x ∈ bl ∧ ∀ p ∈ bl, regd p = regd x → p ≠ x → isSubB x p = false)) ∧
    pipeDomains ["||a.b.example.com^".data, "||example.com^".data] = ["example.com".data] :=
  ⟨fun bl h1 h2 x => mem_collapseB h1 h2 x, by decide⟩

/-- C5 witness: the collapse characterisation instantiated on the block
set `{a.b.example.com, example.com}`. -/
theorem C5_parent_collapse_witness :
    ("a.b.example.com".data ∈
        collapseB ["a.b.example.com".data, "example.com".data]) ↔
      ("a.b.example.com".data ∈
          (["a.b.example.com".data, "example.com".data] : List (List Char)) ∧
        ∀ p ∈ (["a.b.example.com".data, "example.com".data] : List (List Char)),
          regd p = regd ("a.b.example.com".data) → p ≠ "a.b.example.com".data →
            isSubB ("a.b.example.com".data) p = false) :=
  C5_parent_collapse.1 _ (by unfold OSorted; decide) (by decide) _

/-- C6 counterexample: the claim says two runs on identical input lines
produce byte-identical output files.  The `merged_adblock.txt` header
embeds the run timestamp (`! Generated at: ...`), so two runs at
different times differ. -/
theorem C6_counterexample :
    runFiles ("2024-01-01 00:00:00 UTC".data) [] [] ≠
      runFiles ("2024-01-02 00:00:00 UTC".data) [] [] := by
  decide

/-- C6 (amended): `merged_hosts.txt` and `merged_domains.txt` are pure
functions of the input lines; `merged_adblock.txt` differs between runs
only in the `Generated at` header line — its header minus that line and
its rule block are run-independent. -/
theorem C6_outputs_pure_except_timestamp (now1 now2 : List Char)
    (sources lines : List (List Char)) :
    (runFiles now1 sources lines).2 = (runFiles now2 sources lines).2 ∧
    (headerL adblockTitle now1 sources).eraseIdx 1 =
      (headerL adblockTitle now2 sources).eraseIdx 1 ∧
    (∃ rulesBytes,
      (runFiles now1 sources lines).1 =
        nlJoin (headerL adblockTitle now1 sources) ++ rulesBytes ∧
      (runFiles now2 sources lines).1 =
        nlJoin (headerL adblockTitle now2 sources) ++ rulesBytes) :=
  ⟨rfl, rfl, ⟨((pipeRules lines).map (fun r => r ++ ['\n'])).flatten, rfl, rfl⟩⟩

/-- C7: order independence.  Permuting the input lines leaves the final
aggregate state — allow set, block set, rewrite and type maps — and hence
the resolved state, rule lines and domain list unchanged. -/
theorem C7_order_independence {l1 l2 : List (List Char)} (hp : l1.Perm l2) :
    aggregate l1 = aggregate l2 ∧ pipeState l1 = pipeState l2 ∧
      pipeRules l1 = pipeRules l2 ∧ pipeDomains l1 = pipeDomains l2 := by
  have ha := aggregate_perm hp
  refine ⟨ha, ?_, ?_, ?_⟩ <;> simp [pipeState, pipeRules, pipeDomains, ha]

/-- C7 witness: order independence on a concrete two-line permutation. -/
theorem C7_order_independence_witness :
    aggregate ["0.0.0.0 tracker.example.com".data, "||ads.example.com^".data] =
      aggregate ["||ads.example.com^".data, "0.0.0.0 tracker.example.com".data] :=
  (C7_order_independence (by decide)).1

/-- C8: the rendered rule lines are exactly the `||domain^` rules over the
sorted final block set, then the `$dnsrewrite` rules sorted by (domain,
value), then the `$dnstype` rules likewise; the plain domain list is the
lexicographically sorted union of the block set and both key sets. -/
theorem C8_render_shape (lines : List (List Char)) :
    pipeRules lines =
      (pipeState lines).block.map ruleOfBlock ++ (pipeState lines).rew.map ruleOfRew ++
        (pipeState lines).typ.map ruleOfTyp ∧
    OSorted llt (pipeState lines).block ∧
    OSorted pltb (pipeState lines).rew ∧
    OSorted pltb (pipeState lines).typ ∧
    OSorted llt (pipeDomains lines) ∧
    (∀ d, d ∈ pipeDomains lines ↔
      d ∈ (pipeState lines).block ∨ (∃ v, (d, v) ∈ (pipeState lines).rew) ∨
        (∃ v, (d, v) ∈ (pipeState lines).typ)) := by
  obtain ⟨-, s2, s3, s4, -, -, -, -⟩ := resolveAgg_good (aggregate_good lines)
  exact ⟨rfl, s2, s3, s4, domainsOut_osorted s2, fun d => mem_domainsOut d⟩

/-- C9: the Suffix Guard returns true on a normalized domain exactly when
it has no dot (single label) or is a literal member of the built-in
multi-label suffix set; consequently every domain in any pipeline output
contains a dot, is not in the suffix set, and fails the guard — no
single-label domain such as `localhost` and no listed suffix such as
`co.uk` is ever a rule target. -/
theorem C9_suffix_guard :
    (∀ d : List Char, lowerL d = d → stripDots d = d →
      (isPSLike d = true ↔ ('.' ∉ d ∨ d ∈ pslList))) ∧
    (∀ (lines : List (List Char)) (d : List Char), d ∈ pipeDomains lines →
      '.' ∈ d ∧ d ∉ pslList ∧ isPSLike d = false) := by
  have hiff : ∀ d : List Char, lowerL d = d → stripDots d = d →
      (isPSLike d = true ↔ ('.' ∉ d ∨ d ∈ pslList)) := by
    intro d hl hs
    simp only [isPSLike, hl, hs]
    by_cases hin : d ∈ pslList
    · rw [if_pos hin]
      simp [hin]
    · rw [if_neg hin]
      unfold splitLabels
      rw [hs]
      simp [hin, splitD_length_le_one_iff]
  refine ⟨hiff, ?_⟩
  intro lines d hmem
  obtain ⟨-, -, -, -, -, g2, g3, g4⟩ := resolveAgg_good (aggregate_good lines)
  have hgd : NormalDom d ∧ isPSLike d = false := by
    rcases (mem_domainsOut d).mp hmem with h | ⟨v, hv⟩ | ⟨v, hv⟩
    · exact g2 d h
    · exact g3 (d, v) hv
    · exact g4 (d, v) hv
  obtain ⟨⟨hl, hs⟩, hfalse⟩ := hgd
  have h2 := hiff d hl hs
  rw [hfalse] at h2
  have h3 : ¬('.' ∉ d ∨ d ∈ pslList) := by
    intro h4
    have h5 := h2.mpr h4
    cases h5
  push_neg at h3
  exact ⟨h3.1, h3.2, hfalse⟩

/-- C9 witness: the guard characterisation at `localhost` and `co.uk`, and
the output invariant on a concrete run. -/
theorem C9_suffix_guard_witness :
    (isPSLike ("localhost".data) = true ↔
      ('.' ∉ ("localhost".data) ∨ "localhost".data ∈ pslList)) ∧
    (isPSLike ("co.uk".data) = true ↔
      ('.' ∉ ("co.uk".data) ∨ "co.uk".data ∈ pslList)) ∧
    ('.' ∈ ("example.com".data) ∧ "example.com".data ∉ pslList ∧
      isPSLike ("example.com".data) = false) :=
  ⟨C9_suffix_guard.1 _ (by decide) (by decide),
   C9_suffix_guard.1 _ (by decide) (by decide),
   C9_suffix_guard.2 ["||example.com^".data] _ (by decide)⟩

/-- C10: the Domain Normalizer is total (a Lean function by construction,
mirroring the `except Exception` fallback): it strips surrounding
whitespace and trailing (and leading) dots — the stripped intermediate has
no whitespace at either end and no trailing dot — then lowercases the IDNA
encoding on success and falls back to lowercasing the stripped string on
encoding failure. -/
theorem C10_normalizer_total (raw : List Char) :
    (idnaEncode (stripDots (stripWs raw)) = none →
      idna_norm raw = lowerL (stripDots (stripWs raw))) ∧
    (∀ e, idnaEncode (stripDots (stripWs raw)) = some e → idna_norm raw = lowerL e) ∧
    (∀ c, (stripWs raw).head? = some c → isWsC c = false) ∧
    (∀ c, (stripWs raw).getLast? = some c → isWsC c = false) ∧
    (∀ c, (stripDots (stripWs raw)).getLast? = some c → c ≠ '.') := by
  refine ⟨?_, ?_, ?_, ?_, ?_⟩
  · intro h
    exact idna_norm_eq raw
  · intro e he
    rw [idna_norm_eq raw, idnaEncode_eq_some he]
  · intro c hc
    exact pstrip_head?_false hc
  · intro c hc
    exact pstrip_getLast?_false hc
  · intro c hc heq
    have h2 := pstrip_getLast?_false hc
    rw [heq] at h2
    simp [isDotC] at h2

/-- C10 witness: the Normalizer at a concrete messy input. -/
theorem C10_normalizer_total_witness :
    idna_norm (" Example.COM. ".data) = "example.com".data := by
  have h := (C10_normalizer_total (" Example.COM. ".data)).2.1 ("Example.COM".data) (by decide)
  rw [h]
  decide
